import Mathlib

/-!
Verification development for the `m3c` graph-generation engine.

The Python sources (`m3c/bgx.pyx`, `m3c/bx_graph.pyx`, `m3c/cycles.pyx`,
`m3c/generators.py`) are shallowly embedded below.  Conventions of the
embedding:

* Python `bytes` values are `List Nat` (one entry per byte).  Python strings
  that the code only ever treats as byte sequences (the two-character root and
  algorithm tags, and the operation codes `"v"`, `"e"`, `"d"`) are also
  `List Nat` of their ASCII codes; `sys.byteorder` is taken to be little
  endian, as on all platforms the project runs on.
* Functions that can raise a Python exception return `Option`; `none` stands
  for "an exception propagates" (the particular exception class is not
  modelled).
* Adjacency matrices are `List (List Nat)` of 0/1 entries, exactly the
  lists-of-lists the Python code manipulates.
* Collections of cycles are `Finset Cycle`: the Python code stores cycles in
  `set()` objects keyed by the canonical vertex tuple, and `Cycle.__eq__`
  compares exactly that tuple.
-/

namespace M3C

/-! ### `m3c/bgx.pyx` : byte-level helpers -/

/-- `BITS` of `bgx.pyx`: the eight single-bit masks. -/
def BITS : List Nat := [1, 2, 4, 8, 16, 32, 64, 128]

/-- Little-endian digits of `v` in `sz` bytes (the mathematical content of
`int.to_bytes(sz, sys.byteorder)` once the overflow check has passed). -/
def natToLe : Nat → Nat → List Nat
  | _, 0 => []
  | v, sz + 1 => v % 256 :: natToLe (v / 256) sz

/-- `bytes_from_int(i, sz)`: Python's `int.to_bytes` raises `OverflowError`
when the value does not fit, hence the `Option`. -/
def bytes_from_int (i : Nat) (sz : Nat := 2) : Option (List Nat) :=
  if i < 256 ^ sz then some (natToLe i sz) else none

/-- Value of a little-endian byte list. -/
def leToNat : List Nat → Nat
  | [] => 0
  | b :: rest => b + 256 * leToNat rest

/-- `int_from_bytes(b, ix, sz)` without the returned cursor (callers of the
embedding advance the cursor themselves).  Like Python slicing, reading past
the end of `b` silently yields fewer bytes. -/
def int_from_bytes (b : List Nat) (ix : Nat) (sz : Nat := 2) : Nat :=
  leToNat ((b.drop ix).take sz)

/-! ### `m3c/bx_graph.pyx` : operations, transformations, histories -/

/-- The three operation variants `AddVertex` / `AddEdge` / `DelEdge`,
identified in the source by their `code` fields `"v"` / `"e"` / `"d"`.
`AddEdge.__init__` rejects `i == j`; the decoding functions below perform
that check at the point the object would be constructed. -/
inductive Op where
  | v : Op
  | e (i j : Nat) : Op
  | d (i j : Nat) : Op
deriving DecidableEq, Repr

/-- `Transformation`: an algorithm tag and an ordered operation list. -/
structure Transformation where
  alg : List Nat
  ops : List Op
deriving DecidableEq, Repr

/-- `History`: a root tag plus the ordered transformations. -/
structure History where
  root : List Nat
  elements : List Transformation
deriving DecidableEq, Repr

/-- ASCII codes used by the codec. -/
def SP : Nat := 32

/-- `bytes_from_op_list` on the list form of one operation
(`"v "`, `"e " + i + j`, `"d " + i + j`). -/
def bytes_from_op_list (op : Op) : Option (List Nat) :=
  match op with
  | .v => some [118, SP]
  | .e i j => do pure ([101, SP] ++ (← bytes_from_int i) ++ (← bytes_from_int j))
  | .d i j => do pure ([100, SP] ++ (← bytes_from_int i) ++ (← bytes_from_int j))

/-- `bytes_from_tx`: pad-or-truncate the algorithm tag to two characters,
then a 2-byte operation count, then the encoded operations. -/
def bytes_from_tx (tx : Transformation) : Option (List Nat) := do
  let p1 := (tx.alg ++ [SP, SP]).take 2
  let p2 ← bytes_from_int tx.ops.length
  let rest ← tx.ops.mapM bytes_from_op_list
  pure (p1 ++ p2 ++ rest.flatten)

/-- `bytes_from_hist` composed with `History.to_list`, i.e. the body of
`History.to_bytes`. -/
def bytes_from_hist (h : History) : Option (List Nat) := do
  let bb := (h.root ++ [SP, SP]).take 2
  let cnt ← bytes_from_int h.elements.length
  let rest ← h.elements.mapM bytes_from_tx
  pure (bb ++ cnt ++ rest.flatten)

/-- Python `str.strip()` restricted to the space character, the only
whitespace the codec ever produces. -/
def stripSpaces (l : List Nat) : List Nat :=
  ((l.dropWhile (· = SP)).reverse.dropWhile (· = SP)).reverse

/-- `op_list_from_bytes` fused with the validation `op_from_list` performs on
its output (`history_from_bytes` always runs both): parses one operation off
the front of `b` and returns the remaining bytes.  `none` covers both the
`ValueError` of an unknown code and the `ValueError` `AddEdge.__init__`
raises on equal endpoints. -/
def op_list_from_bytes (b : List Nat) : Option (Op × List Nat) :=
  let code := stripSpaces (b.take 2)
  if code = [118] then some (.v, b.drop 2)
  else if code = [101] then
    let i := int_from_bytes b 2
    let j := int_from_bytes b 4
    if i = j then none else some (.e i j, b.drop 6)
  else if code = [100] then
    some (.d (int_from_bytes b 2) (int_from_bytes b 4), b.drop 6)
  else none

/-- The operation-reading loop of `tx_from_bytes` (`tx_len` iterations). -/
def ops_from_bytes : Nat → List Nat → Option (List Op × List Nat)
  | 0, b => some ([], b)
  | n + 1, b => do
    let (op, b') ← op_list_from_bytes b
    let (ops, b'') ← ops_from_bytes n b'
    pure (op :: ops, b'')

/-- `tx_from_bytes` (fused with `transformation_from_list`): the two tag
bytes are *not* stripped. -/
def tx_from_bytes (b : List Nat) : Option (Transformation × List Nat) := do
  let txName := b.take 2
  let txLen := int_from_bytes b 2
  let (ops, rest) ← ops_from_bytes txLen (b.drop 4)
  pure (⟨txName, ops⟩, rest)

/-- The transformation-reading loop of `hist_from_bytes`. -/
def txs_from_bytes : Nat → List Nat → Option (List Transformation × List Nat)
  | 0, b => some ([], b)
  | n + 1, b => do
    let (tx, b') ← tx_from_bytes b
    let (txs, b'') ← txs_from_bytes n b'
    pure (tx :: txs, b'')

/-- `history_from_bytes = history_from_list ∘ hist_from_bytes`: the root tag
bytes are *not* stripped either. -/
def history_from_bytes (bb : List Nat) : Option History := do
  let root := bb.take 2
  let hlen := int_from_bytes bb 2
  let (txs, _) ← txs_from_bytes hlen (bb.drop 4)
  pure ⟨root, txs⟩

/-! ### `m3c/bx_graph.pyx` : the graph itself -/

/-- `_are_conn(b, n, i, j)`.  The arguments `i`, `j` are `Int` because the
Python function explicitly tests for negative indices; the result is `none`
exactly when Python raises (`IndexError` from the explicit bounds check, or
from `b[bi >> 3]` when the byte array is too short). -/
def are_conn (b : List Nat) (n : Nat) (i j : Int) : Option Bool :=
  if i < 0 ∨ (n : Int) ≤ i ∨ j < 0 ∨ (n : Int) ≤ j then none
  else if i = j then some false
  else
    let ii := (max i j).toNat
    let jj := (min i j).toNat
    let bi := ii * (ii - 1) / 2 + jj
    (b[bi / 8]?).map fun byte => decide (Nat.land byte (BITS.getD (bi % 8) 0) ≠ 0)

/-- `BXGraph` minus its derived `nedge` slot (`nedge` is recomputed from
`badj` in `__init__` and never consulted by the functions embedded here). -/
structure BXGraph where
  history : History
  size : Nat
  badj : List Nat
deriving DecidableEq, Repr

/-- `BXGraph.conn`. -/
def BXGraph.conn (g : BXGraph) (i j : Int) : Option Bool :=
  are_conn g.badj g.size i j

/-- Entry `(i, j)` of an adjacency matrix, as the Python code reads it.  The
Python expression `adj[i][j]` would raise for out-of-range indices; every
caller in the source indexes a square matrix in range, and the default `0`
is never reached there. -/
def adjCell (adj : List (List Nat)) (i j : Nat) : Nat :=
  (adj.getD i []).getD j 0

/-- Bit-packing loop of `bytes_from_adj`: the `k`-th bit of a byte has
weight `BITS[k] = 2 ^ k`. -/
def byteValAux : List Bool → Nat → Nat
  | [], _ => 0
  | bb :: rest, w => (if bb then w else 0) + byteValAux rest (w * 2)

/-- Pack a bit list into bytes, eight bits at a time, emitting a final
partial byte exactly when bits remain (the `if k > 0` tail of
`bytes_from_adj`).  The eight-element pattern keeps the recursion
structural. -/
def packBits : List Bool → List Nat
  | [] => []
  | b0 :: b1 :: b2 :: b3 :: b4 :: b5 :: b6 :: b7 :: rest =>
    byteValAux [b0, b1, b2, b3, b4, b5, b6, b7] 1 :: packBits rest
  | l => [byteValAux l 1]

/-- `bytes_from_adj(adj)`: the strict lower triangle, row by row, packed into
bits. -/
def bytes_from_adj (adj : List (List Nat)) : List Nat :=
  packBits ((List.range adj.length).flatMap fun i =>
    (List.range i).map fun j => decide (adjCell adj i j = 1))

/-- `ext_adj_from_bytes(ba, n, n_ext)`: a square `(n + n_ext)` matrix whose
upper-left `n × n` block is read back from the bitset (both symmetric copies
of each bit, as the Python double assignment writes them) and whose new rows
and columns are `0`.  `none` when any `_are_conn` read raises. -/
def ext_adj_from_bytes (ba : List Nat) (n : Nat) (next : Nat) :
    Option (List (List Nat)) :=
  (List.range (n + next)).mapM fun i =>
    (List.range (n + next)).mapM fun j =>
      if i < n ∧ j < n then
        (are_conn ba n i j).map fun c => if c then 1 else 0
      else some 0

/-- `graph_from_root(root, adj)`. -/
def graph_from_root (root : List Nat) (adj : List (List Nat)) : BXGraph :=
  ⟨⟨root, []⟩, adj.length, bytes_from_adj adj⟩

/-- Write `v` at both `(i, j)` and `(j, i)` is done by two separate calls of
this single-cell update (a no-op out of range; the caller checks bounds the
way Python's read `adj[op.i][op.j]` does before assigning). -/
def setCell (m : List (List Nat)) (i j v : Nat) : List (List Nat) :=
  m.set i ((m.getD i []).set j v)

/-- `adj[i][j]` as a fallible read. -/
def readCell (m : List (List Nat)) (i j : Nat) : Option Nat := do
  let row ← m[i]?
  row[j]?

/-- The body of `apply_transformation`'s operation loop for one operation:
`AddEdge` on a present pair and `DelEdge` on an absent pair raise
`ValueError`; `AddVertex` does nothing here (vertices were counted up
front). -/
def opApply (adj : List (List Nat)) (op : Op) : Option (List (List Nat)) :=
  match op with
  | .v => some adj
  | .e i j => do
    let cell ← readCell adj i j
    if cell = 1 then none
    else do
      let _ ← readCell adj j i
      pure (setCell (setCell adj i j 1) j i 1)
  | .d i j => do
    let cell ← readCell adj i j
    if cell = 0 then none
    else do
      let _ ← readCell adj j i
      pure (setCell (setCell adj i j 0) j i 0)

/-- `apply_transformation(graph, transformation)`. -/
def apply_transformation (g : BXGraph) (t : Transformation) : Option BXGraph := do
  let next := (t.ops.filter fun op => match op with | .v => true | _ => false).length
  let adj0 ← ext_adj_from_bytes g.badj g.size next
  let adj ← t.ops.foldlM opApply adj0
  pure ⟨⟨g.history.root, g.history.elements ++ [t]⟩, g.size + next, bytes_from_adj adj⟩

/-! ### `m3c/cycles.pyx` : canonical cycles -/

/-- The scanning loop of `_arg_min`: carries the running `(mi, mv)` pair and
the index of the element under inspection. -/
def argMinAux : List Nat → Nat → Nat × Nat → Nat × Nat
  | [], _, best => best
  | x :: rest, i, (mi, mv) =>
    if x < mv then argMinAux rest (i + 1) (i, x)
    else argMinAux rest (i + 1) (mi, mv)

/-- `_arg_min(item_list)`: index of the first minimum, `None` on `[]`. -/
def arg_min : List Nat → Option Nat
  | [] => none
  | x :: rest => some (argMinAux rest 1 (0, x)).1

/-- `_arrange_cycle(cv)`: rotate the first minimal vertex to the front,
walking in the direction of its smaller neighbour.  Python's
`cv[(i - 1) % n]` and `cv[(i + d * j) % n]` are rendered with the
non-negative representatives `(i + n - 1) % n` and, for `d = -1` and
`j < n`, `(i + n - j) % n`.  On `[]` the Python code would raise while
indexing with `None`; the embedding returns `[]`, and no caller passes an
empty list. -/
def arrange_cycle (cv : List Nat) : List Nat :=
  match arg_min cv with
  | none => cv
  | some i =>
    let n := cv.length
    let d : Int := if cv.getD ((i + n - 1) % n) 0 < cv.getD ((i + 1) % n) 0 then -1 else 1
    if i = 0 ∧ d = 1 then cv
    else (List.range n).map fun j =>
      cv.getD ((if d = 1 then i + j else i + n - j) % n) 0

/-- `Cycle`: the stored canonical tuple.  `__eq__`/`__hash__` compare the
tuple, which is exactly structural equality of this wrapper. -/
structure Cycle where
  vlist : List Nat
deriving DecidableEq, Repr

/-- `Cycle.__init__(vlist)`: store the arranged tuple. -/
def mkCycle (vlist : List Nat) : Cycle :=
  ⟨arrange_cycle vlist⟩

/-- `bytes_from_cycle(cyc)`: 4-byte length then 2-byte vertex ids; `none`
when a value overflows its fixed width. -/
def bytes_from_cycle (cyc : Cycle) : Option (List Nat) := do
  let hdr ← bytes_from_int cyc.vlist.length 4
  let vs ← cyc.vlist.mapM (bytes_from_int · 2)
  pure (hdr ++ vs.flatten)

/-- `bytes_from_cycle_list(cyc_list)`. -/
def bytes_from_cycle_list (cycList : List Cycle) : Option (List Nat) := do
  let bs ← cycList.mapM bytes_from_cycle
  pure bs.flatten

/-- `cycle_list_from_bytes(bb)`: repeatedly apply `cycle_from_bytes` while
bytes remain; reading a record is pure slicing (short slices quietly give
small integers), so decoding never raises. -/
def cycle_list_from_bytes (bb : List Nat) : List Cycle :=
  if _h : bb = [] then []
  else
    let n := int_from_bytes bb 0 4
    let cv := (List.range n).map fun i => int_from_bytes bb (4 + 2 * i) 2
    mkCycle cv :: cycle_list_from_bytes (bb.drop (2 * n + 4))
termination_by bb.length
decreasing_by
  simp only [List.length_drop]
  have : bb.length ≠ 0 := fun hl => _h (List.eq_nil_of_length_eq_zero hl)
  omega

/-- `BXGraphCyc`: a `BXGraph` that also carries its cycle set. -/
structure BXGraphCyc extends BXGraph where
  cycles : Finset Cycle

/-- `BXGraphCyc.from_bxgraph`. -/
def BXGraphCyc.from_bxgraph (g : BXGraph) (cycles : Finset Cycle) : BXGraphCyc :=
  ⟨g, cycles⟩

/-- `_divide_pos(vlist, v1, v2)`: one past the first position where `v1, v2`
are cyclically adjacent (in either order), `-1` when there is none. -/
def divide_pos (vlist : List Nat) (v1 v2 : Nat) : Int :=
  match (List.range vlist.length).find? (fun i =>
      decide ((vlist.getD i 0 = v1 ∧ vlist.getD ((i + 1) % vlist.length) 0 = v2) ∨
        (vlist.getD i 0 = v2 ∧ vlist.getD ((i + 1) % vlist.length) 0 = v1))) with
  | some i => (i : Int) + 1
  | none => -1

/-- The per-cycle body of `apply_subdivide_edge`. -/
def subdivideOne (v1 v2 w : Nat) (cycle : Cycle) : Cycle :=
  let p := divide_pos cycle.vlist v1 v2
  if p < 0 then cycle
  else if p = cycle.vlist.length then mkCycle (cycle.vlist ++ [w])
  else mkCycle (cycle.vlist.take p.toNat ++ [w] ++ cycle.vlist.drop p.toNat)

/-- `apply_subdivide_edge(cycles, v1, v2, w)`: the loop inserts one rewritten
(or untouched) cycle per input cycle into a fresh set. -/
def apply_subdivide_edge (cycles : Finset Cycle) (v1 v2 w : Nat) : Finset Cycle :=
  cycles.image (subdivideOne v1 v2 w)

/-- The accumulator loop of `_splices(vlist, v1, v2)`: `l1` collects until
the moment `v2` has been passed, `l2` from `v2` on (inclusive). -/
def splicesLoop (vl : List Nat) (i1 i2 n : Nat) :
    List Nat × List Nat × Bool :=
  (List.range n).foldl
    (fun acc i =>
      let p := (i + i1) % n
      let l1 := if acc.2.2 then acc.1 else acc.1 ++ [vl.getD p 0]
      let flag := acc.2.2 ∨ p = i2
      let l2 := if flag then acc.2.1 ++ [vl.getD p 0] else acc.2.1
      (l1, l2, flag))
    ([], [], false)

/-- `_splices(vlist, v1, v2)`.  `List.indexOf` returns the length when the
element is absent, where Python's `.index` raises; both endpoints are
present in every call the source makes. -/
def splices (vl : List Nat) (v1 v2 : Nat) : List Nat × List Nat :=
  let r := splicesLoop vl (vl.indexOf v1) (vl.indexOf v2) vl.length
  (r.1, r.2.1 ++ [v1])

/-- `_follow_triangle(vlist, i, v)`: copy `vlist`, inserting `v` right after
position `i`. -/
def follow_triangle (vl : List Nat) (i : Nat) (v : Nat) : List Nat :=
  (List.range vl.length).flatMap fun j =>
    vl.getD j 0 :: (if j = i then [v] else [])

/-- The per-cycle body of `apply_add_edge`: the original cycle always, plus
the two splices when both endpoints lie on the cycle, plus the four kinds of
triangle splicing when exactly one does. -/
def addEdgeOne (v1 v2 : Nat) (conn : Nat → Nat → Bool) (cycle : Cycle) :
    List Cycle :=
  let vl := cycle.vlist
  let n := vl.length
  let vc := vl.countP fun v => decide (v = v1 ∨ v = v2)
  cycle ::
    (if vc = 2 then
      let s := splices vl v1 v2
      [mkCycle s.1, mkCycle s.2]
    else if vc = 1 then
      (List.range n).flatMap fun i =>
        (if vl.getD i 0 = v1 ∧ conn (vl.getD ((i + n - 1) % n) 0) v2 then
          [mkCycle (follow_triangle vl ((i + n - 1) % n) v2)] else []) ++
        (if vl.getD i 0 = v1 ∧ conn (vl.getD ((i + 1) % n) 0) v2 then
          [mkCycle (follow_triangle vl i v2)] else []) ++
        (if vl.getD i 0 = v2 ∧ conn (vl.getD ((i + n - 1) % n) 0) v1 then
          [mkCycle (follow_triangle vl ((i + n - 1) % n) v1)] else []) ++
        (if vl.getD i 0 = v2 ∧ conn (vl.getD ((i + 1) % n) 0) v1 then
          [mkCycle (follow_triangle vl i v1)] else [])
    else [])

/-- `apply_add_edge(cycles, v1, v2, conn)`: the union of the per-cycle
contributions (the Python function accumulates them in one `set`). -/
def apply_add_edge (cycles : Finset Cycle) (v1 v2 : Nat)
    (conn : Nat → Nat → Bool) : Finset Cycle :=
  cycles.biUnion fun cy => (addEdgeOne v1 v2 conn cy).toFinset

/-! ### `m3c/cycles.pyx` : `move_edge` pattern classification and rewrites -/

/-- State of `get_pattern`'s scan: the string built so far, the
`last_known` flag and the recorded positions of `a`, `b`, `c`. -/
structure PattState where
  s : List Char
  lastKnown : Bool
  pa : Int
  pb : Int
  pc : Int

/-- One step of `get_pattern`'s scan (the `elif` chain of the source). -/
def pattStep (a b c : Nat) (st : PattState) (v : Nat) : PattState :=
  if v = a then ⟨st.s ++ ['a'], true, (st.s.length : Int), st.pb, st.pc⟩
  else if v = b then ⟨st.s ++ ['b'], true, st.pa, (st.s.length : Int), st.pc⟩
  else if v = c then ⟨st.s ++ ['c'], true, st.pa, st.pb, (st.s.length : Int)⟩
  else if st.lastKnown then ⟨st.s ++ ['*'], false, st.pa, st.pb, st.pc⟩
  else ⟨st.s, false, st.pa, st.pb, st.pc⟩

/-- Python's `s.replace("**", "*")`: non-overlapping left-to-right (the scan
never produces more than one adjacent pair, created when the rotation glues
the two ends). -/
def collapseStars : List Char → List Char
  | '*' :: '*' :: rest => '*' :: collapseStars rest
  | ch :: rest => ch :: collapseStars rest
  | [] => []

/-- `get_pattern(vlist, a, b, c)`. -/
def get_pattern (vlist : List Nat) (a b c : Nat) : List Char :=
  let st := vlist.foldl (pattStep a b c) ⟨[], true, -1, -1, -1⟩
  let s :=
    if 0 ≤ st.pa then st.s.drop st.pa.toNat ++ st.s.take st.pa.toNat
    else if 0 ≤ st.pb then st.s.drop st.pb.toNat ++ st.s.take st.pb.toNat
    else if 0 ≤ st.pc then st.s.drop st.pc.toNat ++ st.s.take st.pc.toNat
    else st.s
  collapseStars s

/-- The scanning loop of `get_index`, with its early `break` once all three
positions are known. -/
def getIndexAux (a b c : Nat) : List Nat → Nat → Int × Int × Int → Int × Int × Int
  | [], _, r => r
  | v :: rest, i, (ai, bi, ci) =>
    let r : Int × Int × Int :=
      if v = a then ((i : Int), bi, ci)
      else if v = b then (ai, (i : Int), ci)
      else if v = c then (ai, bi, (i : Int))
      else (ai, bi, ci)
    if 0 ≤ r.1 ∧ 0 ≤ r.2.1 ∧ 0 ≤ r.2.2 then r
    else getIndexAux a b c rest (i + 1) r

/-- `get_index(vlist, a, b, c)`. -/
def get_index (vlist : List Nat) (a b c : Nat) : Int × Int × Int :=
  getIndexAux a b c vlist 0 (-1, -1, -1)

/-- The two-way split several `apply_move_edge` branches perform: walk the
cycle from `start`, `newlist1` collecting until `c` has been seen (inclusive),
`newlist2` from `c` on (inclusive). -/
def splitAtC (vl : List Nat) (start : Nat) (c : Nat) : List Nat × List Nat :=
  let n := vl.length
  let r := (List.range n).foldl
    (fun (acc : List Nat × List Nat × Bool) i =>
      let j := (i + start) % n
      let v := vl.getD j 0
      let l1 := if acc.2.2 then acc.1 else acc.1 ++ [v]
      let flag := acc.2.2 ∨ v = c
      let l2 := if flag then acc.2.1 ++ [v] else acc.2.1
      (l1, l2, flag))
    ([], [], false)
  (r.1, r.2.1)

/-- The pass-through patterns of `apply_move_edge` (the cycle survives
unchanged). -/
def passPatterns : List (List Char) :=
  ["*".toList, "a*".toList, "b*".toList, "c*".toList, "a*b*".toList,
   "a*b*c*".toList, "a*bc*".toList, "a*c*b*".toList, "a*cb*".toList,
   "b*c".toList, "b*c*".toList, "bc*".toList]

/-- The geometrically impossible patterns, raised as a hard error. -/
def impossiblePatterns : List (List Char) :=
  ["a*bc".toList, "a*c".toList, "ab*c".toList, "ac*".toList,
   "ac*b".toList, "ac*b*".toList, "acb*".toList]

/-- The patterns `apply_move_edge` rewrites. -/
def rewritePatterns : List (List Char) :=
  ["a*b".toList, "a*c*".toList, "a*c*b".toList, "a*cb".toList,
   "ab*".toList, "ab*c*".toList, "abc*".toList]

/-- The per-cycle branch of `apply_move_edge`: the cycles this iteration
inserts into `result` (the dead `new_cycles` set of the source is not
modelled), or `none` for the two `raise ValueError` branches. -/
def moveEdgeOne (a b c : Nat) (cycle : Cycle) : Option (List Cycle) :=
  let vl := cycle.vlist
  let idx := get_index vl a b c
  let ai := idx.1
  let bi := idx.2.1
  let patt := get_pattern vl a b c
  if patt = "a*b".toList then
    some [mkCycle (vl.take (bi.toNat + 1) ++ [c] ++ vl.drop (bi.toNat + 1))]
  else if patt = "a*c*".toList then
    let s := splitAtC vl ai.toNat c
    some [cycle, mkCycle s.1, mkCycle s.2]
  else if patt = "a*c*b".toList then
    let s := splitAtC vl ai.toNat c
    some [mkCycle s.1, mkCycle s.2]
  else if patt = "a*cb".toList then
    some [mkCycle (vl.take bi.toNat ++ vl.drop (bi.toNat + 1))]
  else if patt = "ab*".toList then
    some [mkCycle (vl.take (ai.toNat + 1) ++ [c] ++ vl.drop (ai.toNat + 1))]
  else if patt = "ab*c*".toList then
    let s := splitAtC vl bi.toNat c
    some [mkCycle s.1, mkCycle s.2]
  else if patt = "abc*".toList then
    some [mkCycle (vl.take bi.toNat ++ vl.drop (bi.toNat + 1))]
  else if patt ∈ passPatterns then
    some [cycle]
  else none

/-- The stitching `while` loops of `apply_move_edge`, bounded by the cycle
length: with `stop` a valid position and a unit step the Python loop halts
within `length` iterations, which is the fuel this rendering starts from. -/
def walkCollect : Nat → List Nat → Nat → Nat → Bool → List Nat
  | 0, _, _, _, _ => []
  | fuel + 1, vl, j, stop, dec =>
    if j = stop then []
    else
      vl.getD j 0 ::
        walkCollect fuel vl
          ((if dec then j + vl.length - 1 else j + 1) % vl.length) stop dec

/-- The body of `apply_move_edge`'s stitching double loop for one ordered
pair `(cyc1, cyc2)`: `some` of the combined cycle when all guards pass. -/
def stitchOne (a b c : Nat) (cyc1 cyc2 : Cycle) : Option Cycle :=
  if cyc1.vlist.toFinset ∩ cyc2.vlist.toFinset ≠ {b} then none
  else
    let n1 := cyc1.vlist.length
    let i1 := get_index cyc1.vlist a b c
    let patt1 := get_pattern cyc1.vlist a b c
    if ¬(patt1 = "ab*".toList ∨ patt1 = "a*b".toList) then none
    else
      let n2 := cyc2.vlist.length
      let i2 := get_index cyc2.vlist a b c
      let patt2 := get_pattern cyc2.vlist a b c
      if ¬(patt2 = "b*c".toList ∨ patt2 = "bc*".toList) then none
      else
        let dec1 := cyc1.vlist.getD ((i1.1.toNat + 1) % n1) 0 = b
        let part1 := walkCollect n1 cyc1.vlist i1.1.toNat i1.2.1.toNat dec1
        let dec2 := cyc2.vlist.getD ((i2.2.1.toNat + 1) % n2) 0 = c
        let part2 := walkCollect n2 cyc2.vlist i2.2.1.toNat i2.2.2.toNat dec2
        some (mkCycle (part1 ++ part2 ++ [c]))

/-- All cycles added by the stitching pass (the source repeats the double
loop once per outer cycle, which is idempotent on a `set`; over an empty
cycle set the pass never runs and contributes nothing, matching
`Finset.biUnion` over `∅`). -/
def stitchSet (a b c : Nat) (cycles : Finset Cycle) : Finset Cycle :=
  cycles.biUnion fun cyc1 =>
    cycles.biUnion fun cyc2 =>
      match stitchOne a b c cyc1 cyc2 with
      | some cy => {cy}
      | none => ∅

/-- `apply_move_edge(cycles, a, b, c)`: `none` as soon as any cycle's pattern
falls in the impossible or unexpected class (the loop would reach that cycle
and raise), otherwise the union of the per-cycle rewrites and the stitched
cycles. -/
def apply_move_edge (cycles : Finset Cycle) (a b c : Nat) :
    Option (Finset Cycle) :=
  if h : ∀ cy ∈ cycles, (moveEdgeOne a b c cy).isSome then
    some ((cycles.biUnion fun cy => ((moveEdgeOne a b c cy).getD []).toFinset) ∪
      stitchSet a b c cycles)
  else none

/-! ### `m3c/cycles.pyx` : chording paths -/

/-- `edge_lies_along_cycle(cycle, vp)`. -/
def edge_lies_along_cycle (cycle : Cycle) (vp : Nat × Nat) : Bool :=
  let n := cycle.vlist.length
  (List.range n).any fun i =>
    decide ((cycle.vlist.getD i 0 = vp.1 ∧ cycle.vlist.getD ((i + 1) % n) 0 = vp.2) ∨
      (cycle.vlist.getD i 0 = vp.2 ∧ cycle.vlist.getD ((i + 1) % n) 0 = vp.1))

/-- `edge_lies_along_path(path, vp)`. -/
def edge_lies_along_path (path : List Nat) (vp : Nat × Nat) : Bool :=
  (List.range (path.length - 1)).any fun i =>
    decide ((path.getD i 0 = vp.1 ∧ path.getD (i + 1) 0 = vp.2) ∨
      (path.getD i 0 = vp.2 ∧ path.getD (i + 1) 0 = vp.1))

/-- The `pes` set `any_chording_paths` builds for a path: its directed edges
in both orientations. -/
def pathEdgeSet (path : List Nat) : List (Nat × Nat) :=
  ((List.range (path.length - 1)).map fun i =>
    (path.getD i 0, path.getD (i + 1) 0)) ++
  ((List.range (path.length - 1)).map fun i =>
    (path.getD (i + 1) 0, path.getD i 0))

/-- `is_chording_path_es(cycle, path, pvs, pes)` with `pvs = set(path)`
rendered as membership in `path`. -/
def is_chording_path_es (cycle : Cycle) (path : List Nat)
    (pes : List (Nat × Nat)) : Bool :=
  let ncv := cycle.vlist.countP fun v => decide (v ∈ path)
  if ncv ≠ 2 then false
  else
    let n := cycle.vlist.length
    if (List.range n).any (fun i =>
        decide ((cycle.vlist.getD i 0, cycle.vlist.getD ((i + 1) % n) 0) ∈ pes)) then
      false
    else pes.any fun pe => decide (pe.1 ∈ cycle.vlist ∧ pe.2 ∈ cycle.vlist)

/-- `any_chording_paths(bgc, g, pairs, ignore_edges)`.  The igraph handle `g`
is replaced by the path-enumeration oracle itself: `paths v1 v2` stands for
`g.get_all_simple_paths(v1, [v2])`. -/
def any_chording_paths (bgc : BXGraphCyc)
    (paths : Nat → Nat → List (List Nat))
    (pairs : List (Nat × Nat)) (ignoreEdges : List (Nat × Nat)) : Bool :=
  pairs.any fun p =>
    (paths p.1 p.2).any fun path =>
      if ignoreEdges.any (edge_lies_along_path path) then false
      else
        let pes := pathEdgeSet path
        decide (∃ cy ∈ bgc.cycles,
          (ignoreEdges.any (edge_lies_along_cycle cy)) = false ∧
          is_chording_path_es cy path pes = true)

/-! ### `m3c/generators.py` : the rule generators -/

/-- Reading `.i`/`.j` off an operation object: `AddVertex` has neither slot
(Python raises `AttributeError`). -/
def opIJ : Op → Option (Nat × Nat)
  | .v => none
  | .e i j => some (i, j)
  | .d i j => some (i, j)

/-- `_prev_e(bg)`: the outer `Option` is a raised exception
(`elements[-1]` on an empty history, `ops[0]` on an empty operation list,
`.i` on an `AddVertex`); the inner `none` is the `None, None` return. -/
def prev_e (g : BXGraph) : Option (Option (Nat × Nat)) :=
  match g.history.elements.getLast? with
  | none => none
  | some tx =>
    if tx.alg.take 1 = [101] then
      match tx.ops[0]? with
      | none => none
      | some op => (opIJ op).map some
    else some none

/-- The adjacency closure `lambda a, b: bgc.conn(a, b)` passed to
`apply_add_edge`; out-of-range lookups, on which the closure would raise,
answer `false` here (the cycle vertices the algebra feeds it are in range). -/
def connPred (g : BXGraph) : Nat → Nat → Bool :=
  fun x y => decide (g.conn x y = some true)

/-- `e2(bgc)`: the yielded children in order, or `none` for a raised
exception (including the `ValueError` on a history not ending in an
e-rule). -/
def e2 (bgc : BXGraphCyc) : Option (List BXGraphCyc) := do
  let eo ← prev_e bgc.toBXGraph
  let lastIJ ← eo
  (List.range bgc.size).foldlM
    (fun acc i => do
      let acc1 ←
        if i ≠ lastIJ.1 then do
          let cb ← bgc.toBXGraph.conn lastIJ.1 i
          if ¬cb then do
            let bg ← apply_transformation bgc.toBXGraph ⟨[101, 50], [Op.e lastIJ.1 i]⟩
            pure (acc ++ [BXGraphCyc.from_bxgraph bg
              (apply_add_edge bgc.cycles lastIJ.1 i (connPred bgc.toBXGraph))])
          else pure acc
        else pure acc
      if i ≠ lastIJ.2 then do
        let cb ← bgc.toBXGraph.conn lastIJ.2 i
        if ¬cb then do
          let bg ← apply_transformation bgc.toBXGraph ⟨[101, 50], [Op.e lastIJ.2 i]⟩
          pure (acc1 ++ [BXGraphCyc.from_bxgraph bg
            (apply_add_edge bgc.cycles lastIJ.2 i (connPred bgc.toBXGraph))])
        else pure acc1
      else pure acc1)
    []

/-- `_get_typeb_edge(bg)`: `some none` is the `return None` a non-e (or
empty) history takes; the outer `none` is a raised exception while reading
`ops[0].i`. -/
def get_typeb_edge (g : BXGraph) : Option (Option (Nat × Nat)) :=
  match g.history.elements.getLast? with
  | none => some none
  | some tx =>
    if tx.alg.take 1 = [101] then
      match tx.ops[0]? with
      | none => none
      | some op => (opIJ op).map some
    else some none

/-- One direction of `c1`'s candidate loop (the function body is run once
with `(a, b)` and once with the edge reversed). -/
def c1Loop (paths : Nat → Nat → List (List Nat)) (bgc : BXGraphCyc)
    (a b : Nat) (acc0 : List BXGraphCyc) : Option (List BXGraphCyc) :=
  (List.range bgc.size).foldlM
    (fun acc c =>
      if c ≠ a ∧ c ≠ b then do
        let cb ← bgc.toBXGraph.conn b c
        if cb ∧ ¬(any_chording_paths bgc paths [(a, c), (a, b)] [(a, b), (b, c)]) then do
          let n := bgc.size
          let tx : Transformation :=
            ⟨[99, 49], [Op.v, Op.d a b, Op.e a n, Op.e b n, Op.d b c, Op.e c n]⟩
          let bg ← apply_transformation bgc.toBXGraph tx
          let cycles := apply_subdivide_edge bgc.cycles a b n
          let cycles ← apply_move_edge cycles c b n
          pure (acc ++ [BXGraphCyc.from_bxgraph bg cycles])
        else pure acc
      else pure acc)
    acc0

/-- `c1(bgc)` with the path oracle made explicit. -/
def c1 (paths : Nat → Nat → List (List Nat)) (bgc : BXGraphCyc) :
    Option (List BXGraphCyc) := do
  let eo ← get_typeb_edge bgc.toBXGraph
  let e ← eo
  let acc ← c1Loop paths bgc e.1 e.2 []
  c1Loop paths bgc e.2 e.1 acc

/-- `_find_c1_vertices(bgc)`: `elements[-1]` on an empty history raises;
a last transformation that is not `c1` returns `None`; otherwise the four
marked vertices are read out of the recorded operations (raising if the
record is malformed). -/
def find_c1_vertices (g : BXGraph) : Option (Option (Nat × Nat × Nat × Nat)) :=
  match g.history.elements.getLast? with
  | none => none
  | some tx =>
    if tx.alg ≠ [99, 49] then some none
    else
      match tx.ops[1]?, tx.ops[4]?, tx.ops[2]? with
      | some op1, some op4, some op2 =>
        match opIJ op1, opIJ op4, opIJ op2 with
        | some ij1, some ij4, some ij2 =>
          some (some (ij1.1, ij1.2, ij4.2, ij2.2))
        | _, _, _ => none
      | _, _, _ => none

/-- The nested `f` loop of `c2`. -/
def c2InnerLoop (paths : Nat → Nat → List (List Nat)) (bgc : BXGraphCyc)
    (a b c d x : Nat) (acc0 : List BXGraphCyc) : Option (List BXGraphCyc) :=
  (List.range bgc.size).foldlM
    (fun acc f =>
      if f ≠ a ∧ f ≠ b ∧ f ≠ c ∧ f ≠ d ∧ f ≠ x then do
        let cb ← bgc.toBXGraph.conn a f
        if cb ∧ ¬(any_chording_paths bgc paths [(f, a), (f, d)]
            [(f, a), (a, d), (a, x), (x, b), (x, c)]) then do
          let n := bgc.size
          let tx : Transformation :=
            ⟨[99, 50], [Op.v, Op.d a f, Op.d a d, Op.e f n, Op.e a n, Op.e d n]⟩
          let bg ← apply_transformation bgc.toBXGraph tx
          let cycles := apply_subdivide_edge bgc.cycles a d n
          let cycles ← apply_move_edge cycles f a n
          pure (acc ++ [BXGraphCyc.from_bxgraph bg cycles])
        else pure acc
      else pure acc)
    acc0

/-- `c2(bgc)` with the path oracle made explicit: when the parent's last
transformation is not a `c1`, the generator body is skipped and the empty
sequence is produced. -/
def c2 (paths : Nat → Nat → List (List Nat)) (bgc : BXGraphCyc) :
    Option (List BXGraphCyc) := do
  let vo ← find_c1_vertices bgc.toBXGraph
  match vo with
  | none => pure []
  | some (a, b, c, x) =>
    (List.range bgc.size).foldlM
      (fun acc d =>
        if d ≠ a ∧ d ≠ b ∧ d ≠ c ∧ d ≠ x then do
          let cb ← bgc.toBXGraph.conn a d
          if cb ∧ ¬(any_chording_paths bgc paths [(a, b), (a, c), (b, d), (c, d)]
              [(b, x), (c, x), (a, x), (a, d)]) then do
            let n := bgc.size
            let tx : Transformation :=
              ⟨[99, 50], [Op.v, Op.d a d, Op.e a n, Op.e d n, Op.d x a, Op.e x n]⟩
            let bg ← apply_transformation bgc.toBXGraph tx
            let cycles := apply_subdivide_edge bgc.cycles a d n
            let cycles ← apply_move_edge cycles x a n
            c2InnerLoop paths bgc a b c d x
              (acc ++ [BXGraphCyc.from_bxgraph bg cycles])
          else pure acc
        else pure acc)
      []

/-- `_find_c3_vertices(bgc)`: needs (and reads) the last *two*
transformations, both tagged `e…`, sharing one endpoint. -/
def find_c3_vertices (g : BXGraph) : Option (Option (Nat × Nat × Nat)) :=
  match g.history.elements.reverse with
  | tx1 :: tx2 :: _ =>
    if ¬(tx1.alg.take 1 = [101] ∧ tx2.alg.take 1 = [101]) then some none
    else
      match tx1.ops[0]?, tx2.ops[0]? with
      | some op1, some op2 =>
        match opIJ op1, opIJ op2 with
        | some (v1, v2), some (v3, v4) =>
          if v1 = v4 then some (some (v2, v1, v3))
          else if v1 = v3 then some (some (v2, v1, v4))
          else if v2 = v3 then some (some (v1, v2, v4))
          else if v2 = v4 then some (some (v1, v2, v3))
          else some none
        | _, _ => none
      | _, _ => none
  | _ => none

/-- `c3(bgc)` with the path oracle made explicit: an incompatible pair of
last transformations skips the body, producing the empty sequence. -/
def c3 (paths : Nat → Nat → List (List Nat)) (bgc : BXGraphCyc) :
    Option (List BXGraphCyc) := do
  let vo ← find_c3_vertices bgc.toBXGraph
  match vo with
  | none => pure []
  | some (a, b, c) =>
    if ¬(any_chording_paths bgc paths [(a, b), (b, c), (a, c)] [(a, b), (b, c)]) then do
      let n := bgc.size
      let tx : Transformation :=
        ⟨[99, 51], [Op.v, Op.d a b, Op.e a n, Op.e b n, Op.d c b, Op.e c n]⟩
      let bg ← apply_transformation bgc.toBXGraph tx
      let cycles := apply_subdivide_edge bgc.cycles a b n
      let cycles ← apply_move_edge cycles c b n
      pure [BXGraphCyc.from_bxgraph bg cycles]
    else pure []

/-! ## Replay of a recorded history (claim C1) -/

/-- Replaying a recorded transformation sequence from a root adjacency
table: fold `apply_transformation` over the elements, starting from
`graph_from_root`. -/
def replayHistory (root : List Nat) (adj : List (List Nat))
    (elements : List Transformation) : Option BXGraph :=
  elements.foldlM apply_transformation (graph_from_root root adj)

/-- The graphs the system can hold: seeded by `graph_from_root` and extended
only through successful `apply_transformation` calls (which is how every
rule generator builds its children). -/
inductive Produced (root : List Nat) (adj : List (List Nat)) : BXGraph → Prop
  | seed : Produced root adj (graph_from_root root adj)
  | step {g : BXGraph} {t : Transformation} {g' : BXGraph} :
      Produced root adj g → apply_transformation g t = some g' →
      Produced root adj g'

theorem apply_transformation_history {g : BXGraph} {t : Transformation}
    {g' : BXGraph} (h : apply_transformation g t = some g') :
    g'.history = ⟨g.history.root, g.history.elements ++ [t]⟩ := by
  unfold apply_transformation at h
  simp only [bind, Option.bind_eq_some, pure, Option.some_inj] at h
  obtain ⟨adj0, _, adj, _, rfl⟩ := h
  rfl

/-- C1: for every `BXGraph` produced by the system — seeded via
`graph_from_root` and extended only through `apply_transformation` —
replaying its recorded history from the root adjacency table, applying each
transformation in order, reproduces the graph exactly (in particular its
`size` and its adjacency bitset `badj`). -/
theorem C1_replay_invariant (root : List Nat) (adj : List (List Nat))
    (g : BXGraph) (h : Produced root adj g) :
    replayHistory root adj g.history.elements = some g := by
  induction h with
  | seed => rfl
  | @step g t g' _hp hstep ih =>
    have hh := apply_transformation_history hstep
    rw [hh]
    show List.foldlM apply_transformation (graph_from_root root adj)
      (g.history.elements ++ [t]) = some g'
    rw [List.foldlM_append]
    show (replayHistory root adj g.history.elements).bind _ = some g'
    rw [ih]
    simpa using hstep

/-- Witness for C1: a two-vertex root extended by one `e1` edge addition;
the replayed history rebuilds the same size-2 graph with bitset `[1]`. -/
theorem C1_replay_invariant_witness :
    replayHistory [112, 114] [[0, 0], [0, 0]]
      (BXGraph.mk ⟨[112, 114], [⟨[101, 49], [Op.e 1 0]⟩]⟩ 2 [1]).history.elements =
      some (BXGraph.mk ⟨[112, 114], [⟨[101, 49], [Op.e 1 0]⟩]⟩ 2 [1]) :=
  C1_replay_invariant [112, 114] [[0, 0], [0, 0]] _
    (@Produced.step [112, 114] [[0, 0], [0, 0]]
      (graph_from_root [112, 114] [[0, 0], [0, 0]])
      ⟨[101, 49], [Op.e 1 0]⟩
      (BXGraph.mk ⟨[112, 114], [⟨[101, 49], [Op.e 1 0]⟩]⟩ 2 [1])
      Produced.seed (by decide))

/-! ## Fatal edit violations (claim C8) -/

theorem foldlM_prefix_fail {α β : Type} (f : β → α → Option β) :
    ∀ (l : List α) (a : β) (k : Nat) (m : β),
      (l.take k).foldlM f a = some m →
      (∃ x, l[k]? = some x ∧ f m x = none) →
      l.foldlM f a = none := by
  intro l
  induction l with
  | nil =>
    intro a k m _ hfail
    obtain ⟨x, hx, _⟩ := hfail
    simp at hx
  | cons y ys ih =>
    intro a k m hpre hfail
    cases k with
    | zero =>
      simp only [List.take_zero, List.foldlM_nil, pure, Option.some_inj] at hpre
      obtain ⟨x, hx, hfx⟩ := hfail
      simp only [List.getElem?_cons_zero, Option.some_inj] at hx
      subst hx
      subst hpre
      simp only [List.foldlM_cons, hfx]
      rfl
    | succ k' =>
      simp only [List.take_succ_cons, List.foldlM_cons, bind] at hpre ⊢
      cases hfa : f a y with
      | none => rw [hfa] at hpre; exact absurd hpre (by simp)
      | some a' =>
        rw [hfa] at hpre
        obtain ⟨x, hx, hfx⟩ := hfail
        simp only [List.getElem?_cons_succ] at hx
        exact ih a' k' m hpre ⟨x, hx, hfx⟩

theorem opApply_addEdge_present {m : List (List Nat)} {i j : Nat}
    (h : readCell m i j = some 1) : opApply m (.e i j) = none := by
  simp [opApply, h]

theorem opApply_delEdge_absent {m : List (List Nat)} {i j : Nat}
    (h : readCell m i j = some 0) : opApply m (.d i j) = none := by
  simp [opApply, h]

/-- C8: `apply_transformation` fails fatally (produces no graph) whenever,
at the point it is applied, an `AddEdge` operation addresses a pair already
connected or a `DelEdge` operation addresses a pair not connected: neither
situation is silently ignored. -/
theorem C8_bad_edit_fails (g : BXGraph) (t : Transformation)
    (adj0 m : List (List Nat)) (k i j : Nat)
    (hinit : ext_adj_from_bytes g.badj g.size
      ((t.ops.filter fun op => match op with | .v => true | _ => false).length) =
      some adj0)
    (hpre : (t.ops.take k).foldlM opApply adj0 = some m)
    (hviol : (t.ops[k]? = some (.e i j) ∧ readCell m i j = some 1) ∨
      (t.ops[k]? = some (.d i j) ∧ readCell m i j = some 0)) :
    apply_transformation g t = none := by
  have hfold : t.ops.foldlM opApply adj0 = none := by
    rcases hviol with ⟨hop, hcell⟩ | ⟨hop, hcell⟩
    · exact foldlM_prefix_fail opApply t.ops adj0 k m hpre
        ⟨.e i j, hop, opApply_addEdge_present hcell⟩
    · exact foldlM_prefix_fail opApply t.ops adj0 k m hpre
        ⟨.d i j, hop, opApply_delEdge_absent hcell⟩
  simp [apply_transformation, bind, hinit, hfold]

/-- Witness for C8: adding edge `(0, 1)` to the two-vertex graph that
already has it fails. -/
theorem C8_bad_edit_fails_witness :
    apply_transformation (BXGraph.mk ⟨[112, 114], []⟩ 2 [1])
      ⟨[101, 49], [Op.e 0 1]⟩ = none :=
  C8_bad_edit_fails (BXGraph.mk ⟨[112, 114], []⟩ 2 [1])
    ⟨[101, 49], [Op.e 0 1]⟩ [[0, 1], [1, 0]] [[0, 1], [1, 0]] 0 0 1
    (by decide) (by decide) (Or.inl ⟨by decide, by decide⟩)

/-! ## Totality, irreflexivity and symmetry of the adjacency query
(claim C10) -/

/-- The byte index `_are_conn` reads stays inside a bitset that is long
enough for `n` vertices. -/
theorem bit_index_lt {n ii jj : Nat} (hj : jj < ii) (hi : ii < n) :
    ii * (ii - 1) / 2 + jj < n * (n - 1) / 2 := by
  obtain ⟨k, rfl⟩ : ∃ k, ii = k + 1 := ⟨ii - 1, by omega⟩
  obtain ⟨l, rfl⟩ : ∃ l, n = l + 1 := ⟨n - 1, by omega⟩
  simp only [Nat.add_sub_cancel]
  have h3 : (k + 1) * (k + 2) ≤ l * (l + 1) :=
    Nat.mul_le_mul (by omega) (by omega)
  have h2 : (k + 1) * k + 2 * (k + 1) = (k + 1) * (k + 2) := by ring
  obtain ⟨w1, hw1⟩ := Nat.even_mul_succ_self k
  obtain ⟨w2, hw2⟩ := Nat.even_mul_succ_self l
  have hk : (k + 1) * k = w1 + w1 := by rw [mul_comm]; exact hw1
  have hl : (l + 1) * l = w2 + w2 := by rw [mul_comm]; exact hw2
  have h3' : (k + 1) * k + 2 * (k + 1) ≤ (l + 1) * l := by
    rw [h2, mul_comm (l + 1) l]; exact h3
  rw [hk, hl] at h3' ⊢
  omega

/-- C10: on a `BXGraph` whose bitset is long enough for its size (as every
graph the system builds is), the adjacency query `conn` answers on every
in-range pair, answers `False` on the diagonal, is symmetric, and raises an
index error (yields no answer) on any out-of-range index instead of reading
out-of-range bits. -/
theorem C10_conn_contract (g : BXGraph) (i j : Int)
    (hlen : (g.size * (g.size - 1) / 2 + 7) / 8 ≤ g.badj.length) :
    ((0 ≤ i ∧ i < (g.size : Int) ∧ 0 ≤ j ∧ j < (g.size : Int)) →
      (g.conn i j).isSome) ∧
    ((0 ≤ i ∧ i < (g.size : Int) ∧ i = j) → g.conn i j = some false) ∧
    g.conn i j = g.conn j i ∧
    ((i < 0 ∨ (g.size : Int) ≤ i ∨ j < 0 ∨ (g.size : Int) ≤ j) →
      g.conn i j = none) := by
  refine ⟨?_, ?_, ?_, ?_⟩
  · rintro ⟨hi0, hin, hj0, hjn⟩
    have hb : ¬(i < 0 ∨ (g.size : Int) ≤ i ∨ j < 0 ∨ (g.size : Int) ≤ j) := by
      push_neg; exact ⟨hi0, hin, hj0, hjn⟩
    by_cases hij : i = j
    · subst hij
      have hb2 : ¬(i < 0 ∨ (g.size : Int) ≤ i ∨ i < 0 ∨ (g.size : Int) ≤ i) := by
        omega
      simp [BXGraph.conn, are_conn, hb2]
    · simp only [BXGraph.conn, are_conn, hb, if_false, hij, if_neg hij]
      have hmax : (max i j).toNat < g.size := by
        rcases max_choice i j with hm | hm <;> rw [hm] <;> omega
      have hmm : (min i j).toNat < (max i j).toNat := by
        rcases le_or_lt i j with hle | hlt
        · rw [max_eq_right hle, min_eq_left hle]; omega
        · rw [max_eq_left hlt.le, min_eq_right hlt.le]; omega
      have hbi := bit_index_lt hmm hmax
      have hbyte : ((max i j).toNat * ((max i j).toNat - 1) / 2 +
          (min i j).toNat) / 8 < g.badj.length := by
        generalize hB : g.size * (g.size - 1) / 2 = B at hbi hlen
        generalize hb2 : (max i j).toNat * ((max i j).toNat - 1) / 2 +
          (min i j).toNat = bi at hbi ⊢
        omega
      simp [List.getElem?_eq_getElem hbyte]
  · rintro ⟨hi0, hin, rfl⟩
    have hb : ¬(i < 0 ∨ (g.size : Int) ≤ i ∨ i < 0 ∨ (g.size : Int) ≤ i) := by
      push_neg; exact ⟨hi0, hin, hi0, hin⟩
    simp [BXGraph.conn, are_conn, hb]
  · by_cases hb : i < 0 ∨ (g.size : Int) ≤ i ∨ j < 0 ∨ (g.size : Int) ≤ j
    · have hb' : j < 0 ∨ (g.size : Int) ≤ j ∨ i < 0 ∨ (g.size : Int) ≤ i := by
        tauto
      simp [BXGraph.conn, are_conn, hb, hb']
    · have hb' : ¬(j < 0 ∨ (g.size : Int) ≤ j ∨ i < 0 ∨ (g.size : Int) ≤ i) := by
        tauto
      by_cases hij : i = j
      · simp [BXGraph.conn, are_conn, hb, hb', hij]
      · simp only [BXGraph.conn, are_conn, hb, hb', if_false, hij,
          Ne.symm hij, if_neg hij, if_neg (Ne.symm hij)]
        rw [max_comm, min_comm]
  · intro hb
    simp [BXGraph.conn, are_conn, hb]

/-- Witness for C10 on the two-vertex graph with bitset `[1]` at the
in-range pair `(1, 0)`. -/
theorem C10_conn_contract_witness :
    ((BXGraph.mk ⟨[112, 114], []⟩ 2 [1]).conn 1 0).isSome := by
  have h := C10_conn_contract (BXGraph.mk ⟨[112, 114], []⟩ 2 [1]) 1 0 (by decide)
  exact h.1 (by decide)

/-! ## Cycle algebra: `add_edge` retention (claim C3) and `subdivide_edge`
(claim C4) -/

/-- The adjacency predicate of the 4-cycle `0-1-2-3-0` after the chord
`(0, 2)` has been added: the `conn` callback `add_edge` receives reflects
the graph *after* the addition. -/
def connSquareChord : Nat → Nat → Bool := fun x y =>
  decide ((x, y) ∈ [(0, 1), (1, 2), (2, 3), (0, 3), (0, 2)] ∨
    (y, x) ∈ [(0, 1), (1, 2), (2, 3), (0, 3), (0, 2)])

/-- C3: `apply_add_edge` keeps every input cycle in its output, and on the
single 4-cycle `0-1-2-3-0` with the new edge `(0, 2)` it returns exactly
three cycles: the 4-cycle itself plus the triangles `{0,1,2}` and
`{0,2,3}`. -/
theorem C3_add_edge_retention (cycles : Finset Cycle) (v1 v2 : Nat)
    (conn : Nat → Nat → Bool) :
    (∀ cy ∈ cycles, cy ∈ apply_add_edge cycles v1 v2 conn) ∧
    apply_add_edge {mkCycle [0, 1, 2, 3]} 0 2 connSquareChord =
      {mkCycle [0, 1, 2, 3], mkCycle [0, 1, 2], mkCycle [0, 2, 3]} := by
  constructor
  · intro cy hcy
    refine Finset.mem_biUnion.mpr ⟨cy, hcy, ?_⟩
    rw [List.mem_toFinset]
    exact List.mem_cons_self _ _
  · decide

/-- C4: `apply_subdivide_edge` passes every cycle without the
`(v1, v2)` adjacency through unchanged, splices the new vertex `w` into the
first such adjacency of every cycle that has one, and on the triangle
`{0,1,2}` with edge `(0,1)` subdivided by `3` yields exactly the 4-cycle
`{0,3,1,2}`, the triangle itself being gone. -/
theorem C4_subdivide_edge (cycles : Finset Cycle) (v1 v2 w : Nat) :
    (∀ cy ∈ cycles, divide_pos cy.vlist v1 v2 = -1 →
      cy ∈ apply_subdivide_edge cycles v1 v2 w) ∧
    (∀ cy ∈ cycles, 0 ≤ divide_pos cy.vlist v1 v2 →
      mkCycle (cy.vlist.take (divide_pos cy.vlist v1 v2).toNat ++ [w] ++
        cy.vlist.drop (divide_pos cy.vlist v1 v2).toNat) ∈
        apply_subdivide_edge cycles v1 v2 w) ∧
    apply_subdivide_edge {mkCycle [0, 1, 2]} 0 1 3 = {mkCycle [0, 3, 1, 2]} ∧
    mkCycle [0, 1, 2] ∉ apply_subdivide_edge {mkCycle [0, 1, 2]} 0 1 3 := by
  refine ⟨?_, ?_, by decide, by decide⟩
  · intro cy hcy hp
    refine Finset.mem_image.mpr ⟨cy, hcy, ?_⟩
    unfold subdivideOne
    rw [if_pos (by rw [hp]; decide)]
  · intro cy hcy hp
    refine Finset.mem_image.mpr ⟨cy, hcy, ?_⟩
    unfold subdivideOne
    rw [if_neg (by omega)]
    by_cases hlen : divide_pos cy.vlist v1 v2 = (cy.vlist.length : Int)
    · rw [if_pos hlen, hlen]
      simp
    · rw [if_neg hlen]

/-! ## `move_edge` impossible patterns (claim C5) -/

theorem moveEdgeOne_isSome_iff (a b c : Nat) (cy : Cycle) :
    (moveEdgeOne a b c cy).isSome ↔
      (get_pattern cy.vlist a b c ∈ rewritePatterns ∨
        get_pattern cy.vlist a b c ∈ passPatterns) := by
  simp only [moveEdgeOne]
  split_ifs with h1 h2 h3 h4 h5 h6 h7 h8 <;>
    simp_all [rewritePatterns, passPatterns]

/-- C5: as soon as one cycle's three-symbol-plus-wildcard signature over the
marked vertices falls outside the enumerated rewrite and pass-through
pattern sets (the listed impossible signatures among them),
`apply_move_edge` raises a hard error — it produces no cycle set at all. -/
theorem C5_move_edge_impossible (cycles : Finset Cycle) (a b c : Nat)
    (h : ∃ cy ∈ cycles, get_pattern cy.vlist a b c ∉ rewritePatterns ∧
      get_pattern cy.vlist a b c ∉ passPatterns) :
    apply_move_edge cycles a b c = none := by
  obtain ⟨cy, hcy, h1, h2⟩ := h
  unfold apply_move_edge
  rw [dif_neg]
  intro hall
  have := (moveEdgeOne_isSome_iff a b c cy).mp (hall cy hcy)
  tauto

/-- Witness for C5: the cycle `(0, 1, 2)` with marks `a = 0`, `b = 5`,
`c = 2` has the geometrically impossible signature `a*c`, and
`apply_move_edge` fails on it. -/
theorem C5_move_edge_impossible_witness :
    apply_move_edge {mkCycle [0, 1, 2]} 0 5 2 = none :=
  C5_move_edge_impossible {mkCycle [0, 1, 2]} 0 5 2
    ⟨mkCycle [0, 1, 2], by decide, by decide, by decide⟩

/-! ## Codec round trips (claim C2) -/

/-- An operation the codec can reproduce: 2-byte endpoints, and distinct
endpoints for an edge addition (the decoder rebuilds an `AddEdge`, whose
constructor rejects equal endpoints). -/
def opWF : Op → Bool
  | .v => true
  | .e i j => decide (i < 65536) && decide (j < 65536) && decide (i ≠ j)
  | .d i j => decide (i < 65536) && decide (j < 65536)

/-- A transformation the codec can reproduce: a tag of exactly two bytes
(shorter tags are space-padded, longer ones truncated, and the decoder does
not strip) and a 2-byte operation count. -/
def txWF (tx : Transformation) : Bool :=
  decide (tx.alg.length = 2) && decide (tx.ops.length < 65536) && tx.ops.all opWF

/-- A history the codec can reproduce. -/
def histWF (h : History) : Bool :=
  decide (h.root.length = 2) && decide (h.elements.length < 65536) &&
    h.elements.all txWF

/-- A cycle the codec can reproduce: 4-byte length, 2-byte vertex ids, and a
stored tuple that is its own canonical arrangement (every `Cycle` the
constructor builds). -/
def cycWF (c : Cycle) : Bool :=
  decide (c.vlist.length < 4294967296) &&
    c.vlist.all (fun v => decide (v < 65536)) && decide (mkCycle c.vlist = c)

theorem natToLe_length (v sz : Nat) : (natToLe v sz).length = sz := by
  induction sz generalizing v with
  | zero => rfl
  | succ n ih => simp [natToLe, ih]

theorem leToNat_natToLe {v sz : Nat} (h : v < 256 ^ sz) :
    leToNat (natToLe v sz) = v := by
  induction sz generalizing v with
  | zero => simp at h; simp [natToLe, leToNat, h]
  | succ n ih =>
    have hv : v / 256 < 256 ^ n := by
      rw [Nat.div_lt_iff_lt_mul (by norm_num)]
      calc v < 256 ^ (n + 1) := h
      _ = 256 ^ n * 256 := by ring
    simp only [natToLe, leToNat, ih hv]
    omega

theorem int_from_bytes_zero (pre rest : List Nat) (sz : Nat)
    (h : pre.length = sz) : int_from_bytes (pre ++ rest) 0 sz = leToNat pre := by
  simp [int_from_bytes, List.take_left' h]

theorem int_from_bytes_shift (x y : Nat) (b : List Nat) (ix sz : Nat) :
    int_from_bytes (x :: y :: b) (2 + ix) sz = int_from_bytes b ix sz := by
  simp only [int_from_bytes, ← List.drop_drop]
  rfl

theorem op_roundtrip (op : Op) (rest : List Nat) (h : opWF op = true) :
    ∃ ob, bytes_from_op_list op = some ob ∧
      op_list_from_bytes (ob ++ rest) = some (op, rest) := by
  cases op with
  | v => exact ⟨[118, SP], rfl, rfl⟩
  | e i j =>
    simp only [opWF, Bool.and_eq_true, decide_eq_true_eq] at h
    obtain ⟨⟨hi, hj⟩, hij⟩ := h
    refine ⟨[101, SP] ++ natToLe i 2 ++ natToLe j 2, ?_, ?_⟩
    · simp [bytes_from_op_list, bytes_from_int, bind, hi, hj]
    · have hb : ([101, SP] ++ natToLe i 2 ++ natToLe j 2) ++ rest =
          101 :: SP :: (natToLe i 2 ++ (natToLe j 2 ++ rest)) := by
        simp
      rw [hb]
      have hri : int_from_bytes (101 :: SP :: (natToLe i 2 ++ (natToLe j 2 ++ rest))) 2 2 = i := by
        rw [show (2 : Nat) = 2 + 0 from rfl, int_from_bytes_shift,
          int_from_bytes_zero _ _ _ (natToLe_length i 2), leToNat_natToLe (by norm_num; omega)]
      have hrj : int_from_bytes (101 :: SP :: (natToLe i 2 ++ (natToLe j 2 ++ rest))) 4 2 = j := by
        rw [show (4 : Nat) = 2 + 2 from rfl, int_from_bytes_shift]
        show leToNat ((((natToLe i 2 ++ (natToLe j 2 ++ rest))).drop 2).take 2) = j
        rw [List.drop_left' (natToLe_length i 2), List.take_left' (natToLe_length j 2),
          leToNat_natToLe (by norm_num; omega)]
      have hdrop : (101 :: SP :: (natToLe i 2 ++ (natToLe j 2 ++ rest))).drop 6 = rest := by
        show ((natToLe i 2 ++ (natToLe j 2 ++ rest))).drop 4 = rest
        rw [show (4 : Nat) = 2 + 2 by rfl, ← List.drop_drop,
          List.drop_left' (natToLe_length i 2), List.drop_left' (natToLe_length j 2)]
      simp only [op_list_from_bytes, hri, hrj, hdrop]
      norm_num [stripSpaces, SP, hij]
  | d i j =>
    simp only [opWF, Bool.and_eq_true, decide_eq_true_eq] at h
    obtain ⟨hi, hj⟩ := h
    refine ⟨[100, SP] ++ natToLe i 2 ++ natToLe j 2, ?_, ?_⟩
    · simp [bytes_from_op_list, bytes_from_int, bind, hi, hj]
    · have hb : ([100, SP] ++ natToLe i 2 ++ natToLe j 2) ++ rest =
          100 :: SP :: (natToLe i 2 ++ (natToLe j 2 ++ rest)) := by
        simp
      rw [hb]
      have hri : int_from_bytes (100 :: SP :: (natToLe i 2 ++ (natToLe j 2 ++ rest))) 2 2 = i := by
        rw [show (2 : Nat) = 2 + 0 from rfl, int_from_bytes_shift,
          int_from_bytes_zero _ _ _ (natToLe_length i 2), leToNat_natToLe (by norm_num; omega)]
      have hrj : int_from_bytes (100 :: SP :: (natToLe i 2 ++ (natToLe j 2 ++ rest))) 4 2 = j := by
        rw [show (4 : Nat) = 2 + 2 from rfl, int_from_bytes_shift]
        show leToNat ((((natToLe i 2 ++ (natToLe j 2 ++ rest))).drop 2).take 2) = j
        rw [List.drop_left' (natToLe_length i 2), List.take_left' (natToLe_length j 2),
          leToNat_natToLe (by norm_num; omega)]
      have hdrop : (100 :: SP :: (natToLe i 2 ++ (natToLe j 2 ++ rest))).drop 6 = rest := by
        show ((natToLe i 2 ++ (natToLe j 2 ++ rest))).drop 4 = rest
        rw [show (4 : Nat) = 2 + 2 by rfl, ← List.drop_drop,
          List.drop_left' (natToLe_length i 2), List.drop_left' (natToLe_length j 2)]
      simp only [op_list_from_bytes, hri, hrj, hdrop]
      norm_num [stripSpaces, SP]

theorem ops_roundtrip (ops : List Op) (rest : List Nat)
    (h : ∀ op ∈ ops, opWF op = true) :
    ∃ obs : List (List Nat), ops.mapM bytes_from_op_list = some obs ∧
      ops_from_bytes ops.length (obs.flatten ++ rest) = some (ops, rest) := by
  induction ops generalizing rest with
  | nil => exact ⟨[], rfl, rfl⟩
  | cons op ops' ih =>
    obtain ⟨obs', hmap', _⟩ := ih rest (fun o ho => h o (List.mem_cons_of_mem _ ho))
    obtain ⟨ob, henc, hdec⟩ := op_roundtrip op (obs'.flatten ++ rest)
      (h op (List.mem_cons_self _ _))
    refine ⟨ob :: obs', ?_, ?_⟩
    · rw [List.mapM_cons, henc, hmap']; rfl
    · obtain ⟨_, _, hdec'⟩ := ih rest (fun o ho => h o (List.mem_cons_of_mem _ ho))
      show ops_from_bytes (ops'.length + 1) ((ob :: obs').flatten ++ rest) = _
      have hfl : (ob :: obs').flatten ++ rest = ob ++ (obs'.flatten ++ rest) := by
        simp
      rw [hfl]
      simp only [ops_from_bytes, hdec, bind, Option.some_bind]
      obtain ⟨obs'', hmap'', hdec''⟩ := ih rest (fun o ho => h o (List.mem_cons_of_mem _ ho))
      rw [hmap'] at hmap''
      cases hmap''
      rw [hdec'']
      rfl

theorem tx_roundtrip (tx : Transformation) (rest : List Nat)
    (h : txWF tx = true) :
    ∃ tb, bytes_from_tx tx = some tb ∧
      tx_from_bytes (tb ++ rest) = some (tx, rest) := by
  simp only [txWF, Bool.and_eq_true, decide_eq_true_eq, List.all_eq_true] at h
  obtain ⟨⟨halg, hlen⟩, hops⟩ := h
  obtain ⟨obs, hmap, hdec⟩ := ops_roundtrip tx.ops rest hops
  refine ⟨tx.alg ++ natToLe tx.ops.length 2 ++ obs.flatten, ?_, ?_⟩
  · simp only [bytes_from_tx, bytes_from_int, bind, hmap, Option.some_bind,
      if_pos (show tx.ops.length < 256 ^ 2 by norm_num; omega)]
    rw [List.take_left' (by simp [halg])]
    rfl
  · have hb : (tx.alg ++ natToLe tx.ops.length 2 ++ obs.flatten) ++ rest =
        tx.alg ++ (natToLe tx.ops.length 2 ++ (obs.flatten ++ rest)) := by simp
    rw [hb]
    have hname : (tx.alg ++ (natToLe tx.ops.length 2 ++ (obs.flatten ++ rest))).take 2 = tx.alg :=
      List.take_left' halg
    have hcnt : int_from_bytes (tx.alg ++ (natToLe tx.ops.length 2 ++ (obs.flatten ++ rest))) 2 2 =
        tx.ops.length := by
      show leToNat ((List.drop 2 _).take 2) = _
      rw [List.drop_left' halg, List.take_left' (natToLe_length _ 2),
        leToNat_natToLe (by norm_num; omega)]
    have hdrop : (tx.alg ++ (natToLe tx.ops.length 2 ++ (obs.flatten ++ rest))).drop 4 =
        obs.flatten ++ rest := by
      rw [show (4 : Nat) = 2 + 2 by rfl, ← List.drop_drop, List.drop_left' halg,
        List.drop_left' (natToLe_length _ 2)]
    simp only [tx_from_bytes, hname, hcnt, hdrop, hdec, bind, Option.some_bind]
    rfl

theorem txs_roundtrip (txs : List Transformation) (rest : List Nat)
    (h : ∀ tx ∈ txs, txWF tx = true) :
    ∃ tbs : List (List Nat), txs.mapM bytes_from_tx = some tbs ∧
      txs_from_bytes txs.length (tbs.flatten ++ rest) = some (txs, rest) := by
  induction txs generalizing rest with
  | nil => exact ⟨[], rfl, rfl⟩
  | cons tx txs' ih =>
    obtain ⟨tbs', hmap', hdec'⟩ := ih rest (fun t ht => h t (List.mem_cons_of_mem _ ht))
    obtain ⟨tb, henc, hdec⟩ := tx_roundtrip tx (tbs'.flatten ++ rest)
      (h tx (List.mem_cons_self _ _))
    refine ⟨tb :: tbs', ?_, ?_⟩
    · rw [List.mapM_cons, henc, hmap']; rfl
    · show txs_from_bytes (txs'.length + 1) ((tb :: tbs').flatten ++ rest) = _
      have hfl : (tb :: tbs').flatten ++ rest = tb ++ (tbs'.flatten ++ rest) := by simp
      rw [hfl]
      simp only [txs_from_bytes, hdec, bind, Option.some_bind, hdec']
      rfl

theorem hist_roundtrip (h : History) (hw : histWF h = true) :
    (bytes_from_hist h).bind history_from_bytes = some h := by
  simp only [histWF, Bool.and_eq_true, decide_eq_true_eq, List.all_eq_true] at hw
  obtain ⟨⟨hroot, hlen⟩, htxs⟩ := hw
  obtain ⟨tbs, hmap, hdec⟩ := txs_roundtrip h.elements [] htxs
  have henc : bytes_from_hist h =
      some (h.root ++ natToLe h.elements.length 2 ++ tbs.flatten) := by
    simp only [bytes_from_hist, bytes_from_int, bind, hmap, Option.some_bind,
      if_pos (show h.elements.length < 256 ^ 2 by norm_num; omega)]
    rw [List.take_left' (by simp [hroot])]
    rfl
  rw [henc]
  have hb : h.root ++ natToLe h.elements.length 2 ++ tbs.flatten =
      h.root ++ (natToLe h.elements.length 2 ++ (tbs.flatten ++ [])) := by simp
  rw [hb]
  have hname : (h.root ++ (natToLe h.elements.length 2 ++ (tbs.flatten ++ []))).take 2 = h.root :=
    List.take_left' hroot
  have hcnt : int_from_bytes (h.root ++ (natToLe h.elements.length 2 ++ (tbs.flatten ++ []))) 2 2 =
      h.elements.length := by
    show leToNat ((List.drop 2 _).take 2) = _
    rw [List.drop_left' hroot, List.take_left' (natToLe_length _ 2),
      leToNat_natToLe (by norm_num; omega)]
  have hdrop : (h.root ++ (natToLe h.elements.length 2 ++ (tbs.flatten ++ []))).drop 4 =
      tbs.flatten ++ [] := by
    rw [show (4 : Nat) = 2 + 2 by rfl, ← List.drop_drop, List.drop_left' hroot,
      List.drop_left' (natToLe_length _ 2)]
  show history_from_bytes _ = some h
  simp only [history_from_bytes, hname, hcnt, hdrop, hdec, bind, Option.some_bind]
  rfl

theorem int_from_bytes_skip (pre rest : List Nat) (k ix sz : Nat)
    (h : pre.length = k) :
    int_from_bytes (pre ++ rest) (k + ix) sz = int_from_bytes rest ix sz := by
  simp only [int_from_bytes, ← List.drop_drop, List.drop_left' h]

theorem flat2_length (vs : List Nat) :
    ((vs.map (natToLe · 2)).flatten).length = 2 * vs.length := by
  induction vs with
  | nil => rfl
  | cons v vs' ih => simp [natToLe_length, ih]; omega

theorem flat2_read (vs : List Nat) (h : ∀ v ∈ vs, v < 65536) (i : Nat)
    (hi : i < vs.length) (rest : List Nat) :
    int_from_bytes ((vs.map (natToLe · 2)).flatten ++ rest) (2 * i) 2 =
      vs.getD i 0 := by
  induction vs generalizing i rest with
  | nil => simp at hi
  | cons v vs' ih =>
    have hfl : (((v :: vs').map (natToLe · 2)).flatten ++ rest) =
        natToLe v 2 ++ (((vs'.map (natToLe · 2)).flatten) ++ rest) := by
      simp
    rw [hfl]
    cases i with
    | zero =>
      rw [show 2 * 0 = 0 by rfl,
        int_from_bytes_zero _ _ _ (natToLe_length v 2),
        leToNat_natToLe (by norm_num; exact h v (List.mem_cons_self _ _))]
      rfl
    | succ i' =>
      rw [show 2 * (i' + 1) = 2 + 2 * i' by ring,
        int_from_bytes_skip _ _ _ _ _ (natToLe_length v 2),
        ih (fun x hx => h x (List.mem_cons_of_mem _ hx)) i' (by simpa using hi) rest]
      rfl

theorem mapM_bytes_from_int (vs : List Nat) (h : ∀ v ∈ vs, v < 65536) :
    vs.mapM (bytes_from_int · 2) = some (vs.map (natToLe · 2)) := by
  induction vs with
  | nil => rfl
  | cons v vs' ih =>
    rw [List.mapM_cons, ih (fun x hx => h x (List.mem_cons_of_mem _ hx))]
    simp [bytes_from_int, h v (List.mem_cons_self _ _)]

theorem cycle_roundtrip (c : Cycle) (rest : List Nat) (h : cycWF c = true) :
    ∃ cb, bytes_from_cycle c = some cb ∧
      cycle_list_from_bytes (cb ++ rest) = c :: cycle_list_from_bytes rest := by
  simp only [cycWF, Bool.and_eq_true, decide_eq_true_eq, List.all_eq_true] at h
  obtain ⟨⟨hlen, hvals⟩, hcanon⟩ := h
  have hvals' : ∀ v ∈ c.vlist, v < 65536 := fun v hv => by
    have := hvals v hv; simpa using this
  have hlen4 : c.vlist.length < 256 ^ 4 := by norm_num; omega
  refine ⟨natToLe c.vlist.length 4 ++ (c.vlist.map (natToLe · 2)).flatten, ?_, ?_⟩
  · unfold bytes_from_cycle
    rw [show bytes_from_int c.vlist.length 4 = some (natToLe c.vlist.length 4) by
      unfold bytes_from_int; rw [if_pos hlen4]]
    rw [mapM_bytes_from_int c.vlist hvals']
    rfl
  · have hb : (natToLe c.vlist.length 4 ++ (c.vlist.map (natToLe · 2)).flatten) ++ rest =
        natToLe c.vlist.length 4 ++ ((c.vlist.map (natToLe · 2)).flatten ++ rest) := by
      simp
    rw [hb]
    have hne : natToLe c.vlist.length 4 ++ ((c.vlist.map (natToLe · 2)).flatten ++ rest) ≠ [] := by
      simp [natToLe]
    have hn : int_from_bytes
        (natToLe c.vlist.length 4 ++ ((c.vlist.map (natToLe · 2)).flatten ++ rest)) 0 4 =
        c.vlist.length := by
      rw [int_from_bytes_zero _ _ _ (natToLe_length _ 4), leToNat_natToLe hlen4]
    have hcv : (List.range c.vlist.length).map (fun i => int_from_bytes
        (natToLe c.vlist.length 4 ++ ((c.vlist.map (natToLe · 2)).flatten ++ rest))
        (4 + 2 * i) 2) = c.vlist := by
      apply List.ext_getElem
      · simp
      · intro j hj1 hj2
        simp only [List.getElem_map, List.getElem_range]
        rw [int_from_bytes_skip _ _ _ _ _ (natToLe_length _ 4),
          flat2_read c.vlist hvals' j (by simpa using hj1) rest,
          List.getD_eq_getElem _ _ hj2]
    have hdrop : (natToLe c.vlist.length 4 ++
        ((c.vlist.map (natToLe · 2)).flatten ++ rest)).drop (2 * c.vlist.length + 4) = rest := by
      rw [← List.append_assoc]
      apply List.drop_left'
      rw [List.length_append, natToLe_length, flat2_length]
      omega
    rw [cycle_list_from_bytes]
    rw [dif_neg hne]
    simp only [hn, hcv, hdrop, hcanon]

theorem cycle_list_roundtrip (cs : List Cycle) (h : ∀ c ∈ cs, cycWF c = true) :
    ∃ obs : List (List Nat), cs.mapM bytes_from_cycle = some obs ∧
      cycle_list_from_bytes obs.flatten = cs := by
  induction cs with
  | nil => exact ⟨[], rfl, by rw [cycle_list_from_bytes]; rfl⟩
  | cons c cs' ih =>
    obtain ⟨obs', hmap', hdec'⟩ := ih (fun x hx => h x (List.mem_cons_of_mem _ hx))
    obtain ⟨cb, henc, hdec⟩ := cycle_roundtrip c obs'.flatten (h c (List.mem_cons_self _ _))
    refine ⟨cb :: obs', ?_, ?_⟩
    · rw [List.mapM_cons, henc, hmap']; rfl
    · have hfl : (cb :: obs').flatten = cb ++ obs'.flatten := by simp
      rw [hfl, hdec, hdec']

/-- C2 as stated is false: the codec pads the root tag to two characters
and the decoder does not strip, so the one-character root `"p"` comes back
as `"p "`. -/
theorem C2_codec_counterexample :
    (bytes_from_hist ⟨[112], []⟩).bind history_from_bytes ≠
      some (⟨[112], []⟩ : History) := by decide

/-- C2 (amended): decoding re-encodes every History whose root and algorithm
tags are exactly two bytes long, whose counts and vertex ids fit their fixed
2-byte widths, and whose edge additions have distinct endpoints; and every
list of canonical cycles with 2-byte vertex ids round-trips through the
cycle codec to the very same list (hence to the same set under canonical
cycle equality). -/
theorem C2_codec_roundtrip (h : History) (cs : List Cycle)
    (hh : histWF h = true) (hcs : ∀ c ∈ cs, cycWF c = true) :
    (bytes_from_hist h).bind history_from_bytes = some h ∧
    ∃ bs, bytes_from_cycle_list cs = some bs ∧ cycle_list_from_bytes bs = cs := by
  refine ⟨hist_roundtrip h hh, ?_⟩
  obtain ⟨obs, hmap, hdec⟩ := cycle_list_roundtrip cs hcs
  exact ⟨obs.flatten, by unfold bytes_from_cycle_list; rw [hmap]; rfl, hdec⟩

/-- Witness for C2 at a concrete history (`"pr"` root, one `e1` edge
addition) and a concrete one-triangle cycle list. -/
theorem C2_codec_roundtrip_witness :
    (bytes_from_hist ⟨[112, 114], [⟨[101, 49], [Op.e 0 1]⟩]⟩).bind history_from_bytes =
      some (⟨[112, 114], [⟨[101, 49], [Op.e 0 1]⟩]⟩ : History) :=
  (C2_codec_roundtrip ⟨[112, 114], [⟨[101, 49], [Op.e 0 1]⟩]⟩ [mkCycle [0, 1, 2]]
    (by decide) (by decide)).1

/-! ## The chording-path predicate (claim C6) -/

theorem mem_pathEdgeSet (path : List Nat) (x y : Nat) :
    (x, y) ∈ pathEdgeSet path ↔
      ∃ j < path.length - 1,
        ((x = path.getD j 0 ∧ y = path.getD (j + 1) 0) ∨
         (x = path.getD (j + 1) 0 ∧ y = path.getD j 0)) := by
  simp only [pathEdgeSet, List.mem_append, List.mem_map, List.mem_range,
    Prod.mk.injEq]
  constructor
  · rintro (⟨j, hj, hx, hy⟩ | ⟨j, hj, hx, hy⟩)
    · exact ⟨j, hj, Or.inl ⟨hx.symm, hy.symm⟩⟩
    · exact ⟨j, hj, Or.inr ⟨hx.symm, hy.symm⟩⟩
  · rintro ⟨j, hj, (⟨hx, hy⟩ | ⟨hx, hy⟩)⟩
    · exact Or.inl ⟨j, hj, hx.symm, hy.symm⟩
    · exact Or.inr ⟨j, hj, hx.symm, hy.symm⟩

theorem cycle_edge_on_path_iff (cy : Cycle) (path : List Nat) :
    ((List.range cy.vlist.length).any (fun i =>
      decide ((cy.vlist.getD i 0, cy.vlist.getD ((i + 1) % cy.vlist.length) 0) ∈
        pathEdgeSet path)) = true) ↔
    ∃ j < path.length - 1,
      edge_lies_along_cycle cy (path.getD j 0, path.getD (j + 1) 0) = true := by
  simp only [List.any_eq_true, List.mem_range, decide_eq_true_eq]
  constructor
  · rintro ⟨i, hi, hmem⟩
    rw [mem_pathEdgeSet] at hmem
    obtain ⟨j, hj, hc⟩ := hmem
    refine ⟨j, hj, ?_⟩
    simp only [edge_lies_along_cycle, List.any_eq_true, List.mem_range,
      decide_eq_true_eq]
    exact ⟨i, hi, by tauto⟩
  · rintro ⟨j, hj, he⟩
    simp only [edge_lies_along_cycle, List.any_eq_true, List.mem_range,
      decide_eq_true_eq] at he
    obtain ⟨i, hi, hc⟩ := he
    exact ⟨i, hi, (mem_pathEdgeSet _ _ _).mpr ⟨j, hj, by tauto⟩⟩

theorem chord_edge_iff (cy : Cycle) (path : List Nat) :
    ((pathEdgeSet path).any (fun pe =>
      decide (pe.1 ∈ cy.vlist ∧ pe.2 ∈ cy.vlist)) = true) ↔
    ∃ j < path.length - 1,
      path.getD j 0 ∈ cy.vlist ∧ path.getD (j + 1) 0 ∈ cy.vlist := by
  simp only [List.any_eq_true, decide_eq_true_eq]
  constructor
  · rintro ⟨⟨x, y⟩, hpe, h1, h2⟩
    rw [mem_pathEdgeSet] at hpe
    obtain ⟨j, hj, hc⟩ := hpe
    refine ⟨j, hj, ?_⟩
    simp only at h1 h2
    rcases hc with ⟨rfl, rfl⟩ | ⟨rfl, rfl⟩ <;> exact ⟨by assumption, by assumption⟩
  · rintro ⟨j, hj, h1, h2⟩
    exact ⟨(path.getD j 0, path.getD (j + 1) 0),
      (mem_pathEdgeSet _ _ _).mpr ⟨j, hj, Or.inl ⟨rfl, rfl⟩⟩, h1, h2⟩

theorem is_chording_path_es_iff (cy : Cycle) (path : List Nat) :
    is_chording_path_es cy path (pathEdgeSet path) = true ↔
      (cy.vlist.countP (fun v => decide (v ∈ path)) = 2 ∧
       (∀ j < path.length - 1,
         edge_lies_along_cycle cy (path.getD j 0, path.getD (j + 1) 0) = false) ∧
       ∃ j < path.length - 1,
         path.getD j 0 ∈ cy.vlist ∧ path.getD (j + 1) 0 ∈ cy.vlist) := by
  simp only [is_chording_path_es]
  split_ifs with h1 h2
  · simp only [Bool.false_eq_true, false_iff]
    tauto
  · simp only [Bool.false_eq_true, false_iff]
    rw [cycle_edge_on_path_iff] at h2
    rintro ⟨_, hall, _⟩
    obtain ⟨j, hj, he⟩ := h2
    have := hall j hj
    rw [this] at he
    cases he
  · rw [chord_edge_iff]
    constructor
    · intro hsome
      refine ⟨by omega, ?_, hsome⟩
      intro j hj
      by_contra hne
      have he : edge_lies_along_cycle cy (path.getD j 0, path.getD (j + 1) 0) = true := by
        cases hb : edge_lies_along_cycle cy (path.getD j 0, path.getD (j + 1) 0)
        · exact absurd hb hne
        · rfl
      exact h2 ((cycle_edge_on_path_iff cy path).mpr ⟨j, hj, he⟩)
    · rintro ⟨_, _, hsome⟩
      exact hsome

/-- C6 (amended): `any_chording_paths` answers `true` exactly when some pair
admits an enumerated simple path that traverses no ignored edge and some
cycle free of ignored edges such that *exactly two* vertices of the path lie
on the cycle, no edge of the path lies along the cycle, and at least one
edge of the path connects two vertices that both lie on the cycle.  (The
claim as stated omits the exactly-two-common-vertices requirement the code
imposes.) -/
theorem C6_any_chording_paths_iff (bgc : BXGraphCyc)
    (paths : Nat → Nat → List (List Nat))
    (pairs ignoreEdges : List (Nat × Nat)) :
    any_chording_paths bgc paths pairs ignoreEdges = true ↔
      ∃ p ∈ pairs, ∃ path ∈ paths p.1 p.2,
        (∀ e ∈ ignoreEdges, edge_lies_along_path path e = false) ∧
        ∃ cy ∈ bgc.cycles,
          (∀ e ∈ ignoreEdges, edge_lies_along_cycle cy e = false) ∧
          cy.vlist.countP (fun v => decide (v ∈ path)) = 2 ∧
          (∀ j < path.length - 1,
            edge_lies_along_cycle cy (path.getD j 0, path.getD (j + 1) 0) = false) ∧
          (∃ j < path.length - 1,
            path.getD j 0 ∈ cy.vlist ∧ path.getD (j + 1) 0 ∈ cy.vlist) := by
  unfold any_chording_paths
  simp only [List.any_eq_true]
  constructor
  · rintro ⟨p, hp, path, hpath, hcond⟩
    by_cases hig : ∃ x ∈ ignoreEdges, edge_lies_along_path path x = true
    · rw [if_pos hig] at hcond; cases hcond
    · rw [if_neg hig] at hcond
      rw [decide_eq_true_eq] at hcond
      obtain ⟨cy, hcy, hige, hch⟩ := hcond
      rw [is_chording_path_es_iff] at hch
      obtain ⟨hncv, hnoedge, hsome⟩ := hch
      refine ⟨p, hp, path, hpath, ?_, cy, hcy, ?_, hncv, hnoedge, hsome⟩
      · intro e he
        cases hb : edge_lies_along_path path e
        · rfl
        · exact absurd ⟨e, he, hb⟩ hig
      · intro e he
        rw [List.any_eq_false] at hige
        have := hige e he
        cases hb : edge_lies_along_cycle cy e
        · rfl
        · exact absurd hb this
  · rintro ⟨p, hp, path, hpath, hnoig, cy, hcy, hnoigc, hncv, hnoedge, hsome⟩
    refine ⟨p, hp, path, hpath, ?_⟩
    have hig : ¬∃ x ∈ ignoreEdges, edge_lies_along_path path x = true := by
      rintro ⟨e, he, hb⟩
      rw [hnoig e he] at hb
      cases hb
    rw [if_neg hig, decide_eq_true_eq]
    refine ⟨cy, hcy, ?_, ?_⟩
    · rw [List.any_eq_false]
      intro e he
      rw [hnoigc e he]
      simp
    · rw [is_chording_path_es_iff]
      exact ⟨hncv, hnoedge, hsome⟩

/-- Test fixture for C6: a hexagon cycle. -/
def bgcHexagon : BXGraphCyc :=
  ⟨⟨⟨[112, 114], []⟩, 6, []⟩, {mkCycle [0, 1, 2, 3, 4, 5]}⟩

/-- Test fixture for C6: an oracle enumerating the single path `0-2-4`. -/
def oracleHexagon : Nat → Nat → List (List Nat) :=
  fun x y => if x = 0 ∧ y = 4 then [[0, 2, 4]] else []

/-- C6 as stated is false: on the hexagon `0-1-2-3-4-5` with the path
`0-2-4` (three of whose vertices lie on the cycle), no edge of the path lies
along the cycle and the edge `(0, 2)` connects two cycle vertices — the
claim's conditions hold — yet `any_chording_paths` answers `false`, because
the code additionally requires exactly two common vertices. -/
theorem C6_any_chording_paths_counterexample :
    any_chording_paths bgcHexagon oracleHexagon [(0, 4)] [] = false ∧
    ((0, 4) ∈ [((0 : Nat), (4 : Nat))] ∧
      [0, 2, 4] ∈ oracleHexagon 0 4 ∧
      (∀ e ∈ ([] : List (Nat × Nat)), edge_lies_along_path [0, 2, 4] e = false) ∧
      mkCycle [0, 1, 2, 3, 4, 5] ∈ bgcHexagon.cycles ∧
      (∀ e ∈ ([] : List (Nat × Nat)),
        edge_lies_along_cycle (mkCycle [0, 1, 2, 3, 4, 5]) e = false) ∧
      (∀ j < 2, edge_lies_along_cycle (mkCycle [0, 1, 2, 3, 4, 5])
        (([0, 2, 4] : List Nat).getD j 0, ([0, 2, 4] : List Nat).getD (j + 1) 0) = false) ∧
      (∃ j < 2, ([0, 2, 4] : List Nat).getD j 0 ∈ (mkCycle [0, 1, 2, 3, 4, 5]).vlist ∧
        ([0, 2, 4] : List Nat).getD (j + 1) 0 ∈ (mkCycle [0, 1, 2, 3, 4, 5]).vlist)) := by
  decide

/-! ## Rule preconditions on history (claim C7) -/

/-- C7 (amended): `e2` and `c1` do fail fatally when the parent's last
transformation is not an e-rule (or the history is empty); `c2`, however,
*silently yields no children* when the last transformation exists but is not
a `c1` (failing fatally only when the history is empty), and `c3` silently
yields no children when the last two transformations exist but are not both
e-rules (failing fatally only when fewer than two transformations exist). -/
theorem C7_rule_preconditions (paths : Nat → Nat → List (List Nat))
    (bgc : BXGraphCyc) :
    ((∀ tx, bgc.history.elements.getLast? = some tx → tx.alg.take 1 ≠ [101]) →
      e2 bgc = none ∧ c1 paths bgc = none) ∧
    (bgc.history.elements.getLast? = none → c2 paths bgc = none) ∧
    (∀ tx, bgc.history.elements.getLast? = some tx → tx.alg ≠ [99, 49] →
      c2 paths bgc = some []) ∧
    (∀ tx1 tx2 rest, bgc.history.elements.reverse = tx1 :: tx2 :: rest →
      ¬(tx1.alg.take 1 = [101] ∧ tx2.alg.take 1 = [101]) →
      c3 paths bgc = some []) ∧
    (bgc.history.elements.length < 2 → c3 paths bgc = none) := by
  refine ⟨?_, ?_, ?_, ?_, ?_⟩
  · intro hlast
    cases hl : bgc.history.elements.getLast? with
    | none =>
      constructor
      · simp [e2, prev_e, hl, bind]
      · simp [c1, get_typeb_edge, hl, bind]
    | some tx =>
      have hne := hlast tx hl
      constructor
      · simp [e2, prev_e, hl, hne, bind]
      · simp [c1, get_typeb_edge, hl, hne, bind]
  · intro hl
    simp [c2, find_c1_vertices, hl, bind]
  · intro tx hl hne
    simp [c2, find_c1_vertices, hl, hne, bind]
  · intro tx1 tx2 rest hr hne
    simp [c3, find_c3_vertices, hr, hne, bind]
  · intro hlen
    rcases hr : bgc.history.elements.reverse with _ | ⟨t1, _ | ⟨t2, rest⟩⟩
    · simp [c3, find_c3_vertices, hr, bind]
    · simp [c3, find_c3_vertices, hr, bind]
    · have : 2 ≤ bgc.history.elements.length := by
        have := congrArg List.length hr
        simp at this
        omega
      omega

/-- C7 as stated is false for `c2`: on a parent whose last transformation is
the e-rule `e1` (so not a `c1`), `c2` does not raise — it silently returns
the empty sequence of children. -/
theorem C7_c2_silent_empty_counterexample :
    (BXGraphCyc.mk ⟨⟨[112, 114], [⟨[101, 49], [Op.e 0 1]⟩]⟩, 2, [1]⟩
        ∅).history.elements.getLast? = some ⟨[101, 49], [Op.e 0 1]⟩ ∧
    (⟨[101, 49], [Op.e 0 1]⟩ : Transformation).alg ≠ [99, 49] ∧
    c2 (fun _ _ => [])
      (BXGraphCyc.mk ⟨⟨[112, 114], [⟨[101, 49], [Op.e 0 1]⟩]⟩, 2, [1]⟩ ∅) =
      some [] :=
  ⟨rfl, by decide, rfl⟩

/-! ## Canonical cycle arrangement (claim C9) -/

/-- "Same cyclic sequence up to rotation and reflection": the second list is
a rotation of the first or of its reversal. -/
def CycEquiv (s t : List Nat) : Prop := s ~r t ∨ s.reverse ~r t

theorem argMinAux_snd_le (l : List Nat) :
    ∀ (i0 mi mv : Nat), (argMinAux l i0 (mi, mv)).2 ≤ mv := by
  induction l with
  | nil => intro i0 mi mv; exact le_refl mv
  | cons x rest ih =>
    intro i0 mi mv
    simp only [argMinAux]
    split_ifs with hx
    · exact le_trans (ih (i0 + 1) i0 x) (le_of_lt hx)
    · exact ih (i0 + 1) mi mv

theorem argMinAux_le_all (l : List Nat) :
    ∀ (i0 mi mv : Nat) (j : Nat), j < l.length →
      (argMinAux l i0 (mi, mv)).2 ≤ l.getD j 0 := by
  induction l with
  | nil => intro _ _ _ j hj; simp at hj
  | cons x rest ih =>
    intro i0 mi mv j hj
    simp only [argMinAux]
    split_ifs with hx
    · cases j with
      | zero => exact argMinAux_snd_le rest (i0 + 1) i0 x
      | succ j' => exact ih (i0 + 1) i0 x j' (by simpa using hj)
    · cases j with
      | zero =>
        have h0 : (x :: rest).getD 0 0 = x := rfl
        rw [h0]
        exact le_trans (argMinAux_snd_le rest (i0 + 1) mi mv) (by omega)
      | succ j' => exact ih (i0 + 1) mi mv j' (by simpa using hj)

theorem argMinAux_val (l : List Nat) :
    ∀ (i0 mi mv : Nat),
      argMinAux l i0 (mi, mv) = (mi, mv) ∨
      ∃ j < l.length, (argMinAux l i0 (mi, mv)).1 = i0 + j ∧
        (argMinAux l i0 (mi, mv)).2 = l.getD j 0 := by
  induction l with
  | nil => intro _ _ _; exact Or.inl rfl
  | cons x rest ih =>
    intro i0 mi mv
    simp only [argMinAux]
    split_ifs with hx
    · rcases ih (i0 + 1) i0 x with heq | ⟨j, hj, h1, h2⟩
      · exact Or.inr ⟨0, by simp, by rw [heq]; rfl, by rw [heq]; rfl⟩

      · exact Or.inr ⟨j + 1, by simpa using hj, by rw [h1]; omega, by simpa using h2⟩
    · rcases ih (i0 + 1) mi mv with heq | ⟨j, hj, h1, h2⟩
      · exact Or.inl heq
      · exact Or.inr ⟨j + 1, by simpa using hj, by rw [h1]; omega, by simpa using h2⟩

theorem arg_min_spec (cv : List Nat) (hne : cv ≠ []) :
    ∃ i, arg_min cv = some i ∧ i < cv.length ∧
      ∀ j < cv.length, cv.getD i 0 ≤ cv.getD j 0 := by
  cases cv with
  | nil => exact absurd rfl hne
  | cons x rest =>
    refine ⟨(argMinAux rest 1 (0, x)).1, rfl, ?_, ?_⟩
    · rcases argMinAux_val rest 1 0 x with heq | ⟨j, hj, h1, _⟩
      · rw [heq]; exact Nat.succ_pos rest.length
      · rw [h1]; simp only [List.length_cons]; omega
    · have hval : (x :: rest).getD (argMinAux rest 1 (0, x)).1 0 =
          (argMinAux rest 1 (0, x)).2 := by
        rcases argMinAux_val rest 1 0 x with heq | ⟨j, hj, h1, h2⟩
        · rw [heq]; rfl
        · rw [h1, h2]
          have : 1 + j = j + 1 := by omega
          rw [this]
          rfl
      intro j hj
      rw [hval]
      cases j with
      | zero => exact argMinAux_snd_le rest 1 0 x
      | succ j' => exact argMinAux_le_all rest 1 0 x j' (by simpa using hj)

theorem getD_rotate (cv : List Nat) (m k : Nat) (hk : k < cv.length) :
    (cv.rotate m).getD k 0 = cv.getD ((k + m) % cv.length) 0 := by
  have hn : 0 < cv.length := by omega
  rw [List.getD_eq_getElem _ _ (by rw [List.length_rotate]; exact hk),
    List.getElem_rotate, List.getD_eq_getElem _ _ (Nat.mod_lt _ hn)]

theorem getD_reverse (cv : List Nat) (k : Nat) (hk : k < cv.length) :
    cv.reverse.getD k 0 = cv.getD (cv.length - 1 - k) 0 := by
  rw [List.getD_eq_getElem _ _ (by rw [List.length_reverse]; exact hk),
    List.getElem_reverse, List.getD_eq_getElem _ _ (by omega)]

theorem getD_ne_of_nodup (cv : List Nat) (hnd : cv.Nodup) (a b : Nat)
    (ha : a < cv.length) (hb : b < cv.length) (hab : a ≠ b) :
    cv.getD a 0 ≠ cv.getD b 0 := by
  rw [List.getD_eq_getElem _ _ ha, List.getD_eq_getElem _ _ hb]
  intro h
  exact hab ((hnd.getElem_inj_iff).mp h)

theorem rotF_eq (cv : List Nat) (i : Nat) :
    (List.range cv.length).map (fun j => cv.getD ((i + j) % cv.length) 0) =
      cv.rotate i := by
  apply List.ext_getElem
  · simp
  · intro j hj1 hj2
    simp only [List.getElem_map, List.getElem_range, List.getElem_rotate]
    have hn : 0 < cv.length := by
      simp only [List.length_map, List.length_range] at hj1
      omega
    rw [Nat.add_comm i j, List.getD_eq_getElem _ _ (Nat.mod_lt _ hn)]

theorem rotB_eq (cv : List Nat) (i : Nat) :
    (List.range cv.length).map (fun j => cv.getD ((i + cv.length - j) % cv.length) 0) =
      (cv.rotate (i + 1)).reverse := by
  apply List.ext_getElem
  · simp
  · intro j hj1 hj2
    simp only [List.getElem_map, List.getElem_range, List.getElem_reverse,
      List.getElem_rotate]
    have hn : 0 < cv.length := by
      simp only [List.length_map, List.length_range] at hj1
      omega
    have hj : j < cv.length := by
      simp only [List.length_map, List.length_range] at hj1
      exact hj1
    have hidx : i + cv.length - j = (cv.rotate (i + 1)).length - 1 - j + (i + 1) := by
      rw [List.length_rotate]
      omega
    rw [hidx, List.getD_eq_getElem _ _ (Nat.mod_lt _ hn)]

theorem arrange_cycle_spec (cv : List Nat) (hne : cv ≠ []) :
    ∃ i, arg_min cv = some i ∧ i < cv.length ∧
      (∀ j < cv.length, cv.getD i 0 ≤ cv.getD j 0) ∧
      ((cv.getD ((i + 1) % cv.length) 0 ≤ cv.getD ((i + cv.length - 1) % cv.length) 0 ∧
        arrange_cycle cv = cv.rotate i) ∨
       (cv.getD ((i + cv.length - 1) % cv.length) 0 < cv.getD ((i + 1) % cv.length) 0 ∧
        arrange_cycle cv = (cv.rotate (i + 1)).reverse)) := by
  obtain ⟨i, hmin, hilt, hle⟩ := arg_min_spec cv hne
  refine ⟨i, hmin, hilt, hle, ?_⟩
  by_cases hd : cv.getD ((i + cv.length - 1) % cv.length) 0 < cv.getD ((i + 1) % cv.length) 0
  · right
    refine ⟨hd, ?_⟩
    unfold arrange_cycle
    rw [hmin]
    simp only [if_pos hd]
    rw [if_neg (by norm_num)]
    have hif : ∀ j : Nat,
        (if (-1 : Int) = 1 then i + j else i + cv.length - j) = i + cv.length - j := by
      intro j; rw [if_neg (by norm_num)]
    simp only [hif]
    exact rotB_eq cv i
  · left
    refine ⟨by omega, ?_⟩
    unfold arrange_cycle
    rw [hmin]
    simp only [if_neg hd]
    by_cases hi0 : i = 0
    · rw [if_pos ⟨hi0, trivial⟩]
      subst hi0
      exact (List.rotate_zero cv).symm
    · rw [if_neg (by intro hc; exact hi0 hc.1)]
      simp only [if_true]
      exact rotF_eq cv i

theorem arrange_length (cv : List Nat) : (arrange_cycle cv).length = cv.length := by
  by_cases hne : cv = []
  · subst hne; rfl
  · obtain ⟨i, _, _, _, hcase⟩ := arrange_cycle_spec cv hne
    rcases hcase with ⟨_, heq⟩ | ⟨_, heq⟩
    · rw [heq, List.length_rotate]
    · rw [heq, List.length_reverse, List.length_rotate]

theorem arrange_props (cv : List Nat) (hnd : cv.Nodup) (h3 : 3 ≤ cv.length) :
    (∀ j, 0 < j → j < (arrange_cycle cv).length →
      (arrange_cycle cv).getD 0 0 < (arrange_cycle cv).getD j 0) ∧
    (arrange_cycle cv).getD 1 0 <
      (arrange_cycle cv).getD ((arrange_cycle cv).length - 1) 0 := by
  have hne : cv ≠ [] := by intro h; subst h; simp at h3
  obtain ⟨i, _hmin, hilt, hle, hcase⟩ := arrange_cycle_spec cv hne
  have hn : 0 < cv.length := by omega
  have hstrict : ∀ j, j < cv.length → j ≠ i → cv.getD i 0 < cv.getD j 0 := by
    intro j hj hji
    have h1 := hle j hj
    have h2 := getD_ne_of_nodup cv hnd i j hilt hj (fun h => hji h.symm)
    omega
  rcases hcase with ⟨hge, heq⟩ | ⟨hlt, heq⟩
  · rw [heq, List.length_rotate]
    constructor
    · intro j hj0 hjn
      rw [getD_rotate cv i 0 hn, getD_rotate cv i j hjn]
      simp only [Nat.zero_add]
      rw [Nat.mod_eq_of_lt hilt]
      apply hstrict _ (Nat.mod_lt _ hn)
      intro hcon
      have hmodeq : (j + i) % cv.length = i % cv.length := by
        rw [hcon, Nat.mod_eq_of_lt hilt]
      have hdvd := (Nat.modEq_iff_dvd' (by omega : i ≤ j + i)).mp hmodeq.symm
      have hsub : j + i - i = j := by omega
      rw [hsub] at hdvd
      have := Nat.le_of_dvd (by omega) hdvd
      omega
    · rw [getD_rotate cv i 1 (by omega), getD_rotate cv i (cv.length - 1) (by omega)]
      have e1 : (1 + i) % cv.length = (i + 1) % cv.length := by rw [Nat.add_comm]
      have e2 : (cv.length - 1 + i) % cv.length = (i + cv.length - 1) % cv.length := by
        congr 1
        omega
      rw [e1, e2]
      have hne2 : (i + 1) % cv.length ≠ (i + cv.length - 1) % cv.length := by
        intro hcon
        have hdvd := (Nat.modEq_iff_dvd'
          (by omega : i + 1 ≤ i + cv.length - 1)).mp hcon
        have hsub : i + cv.length - 1 - (i + 1) = cv.length - 2 := by omega
        rw [hsub] at hdvd
        have := Nat.le_of_dvd (by omega) hdvd
        omega
      have := getD_ne_of_nodup cv hnd _ _ (Nat.mod_lt _ hn) (Nat.mod_lt _ hn) hne2
      omega
  · have hrr : ∀ k, k < cv.length →
        ((cv.rotate (i + 1)).reverse).getD k 0 =
          cv.getD ((cv.length - 1 - k + (i + 1)) % cv.length) 0 := by
      intro k hk
      rw [getD_reverse _ k (by rw [List.length_rotate]; exact hk)]
      rw [List.length_rotate]
      exact getD_rotate cv (i + 1) (cv.length - 1 - k) (by omega)
    have hlen : ((cv.rotate (i + 1)).reverse).length = cv.length := by
      rw [List.length_reverse, List.length_rotate]
    have h0 : ((cv.rotate (i + 1)).reverse).getD 0 0 = cv.getD i 0 := by
      rw [hrr 0 hn]
      have e0 : cv.length - 1 - 0 + (i + 1) = cv.length + i := by omega
      rw [e0, Nat.add_mod_left, Nat.mod_eq_of_lt hilt]
    rw [heq, hlen]
    constructor
    · intro j hj0 hjn
      rw [h0, hrr j hjn]
      apply hstrict _ (Nat.mod_lt _ hn)
      intro hcon
      have hmodeq : (cv.length - 1 - j + (i + 1)) % cv.length = i % cv.length := by
        rw [hcon, Nat.mod_eq_of_lt hilt]
      have hidx : cv.length - 1 - j + (i + 1) = cv.length + i - j := by omega
      rw [hidx] at hmodeq
      have hdvd := (Nat.modEq_iff_dvd'
        (by omega : i ≤ cv.length + i - j)).mp hmodeq.symm
      have hsub : cv.length + i - j - i = cv.length - j := by omega
      rw [hsub] at hdvd
      have := Nat.le_of_dvd (by omega) hdvd
      omega
    · rw [hrr 1 (by omega), hrr (cv.length - 1) (by omega)]
      have e1 : (cv.length - 1 - 1 + (i + 1)) % cv.length =
          (i + cv.length - 1) % cv.length := by
        congr 1
        omega
      have e2 : (cv.length - 1 - (cv.length - 1) + (i + 1)) % cv.length =
          (i + 1) % cv.length := by
        congr 1
        omega
      rw [e1, e2]
      exact hlt

theorem CycEquiv.perm {s t : List Nat} (h : CycEquiv s t) : s.Perm t := by
  rcases h with h | h
  · exact h.perm
  · exact (List.reverse_perm s).symm.trans h.perm

theorem CycEquiv.symm {s t : List Nat} (h : CycEquiv s t) : CycEquiv t s := by
  rcases h with h | h
  · exact Or.inl h.symm
  · right
    have h2 := h.reverse
    rw [List.reverse_reverse] at h2
    exact (List.isRotated_comm.mp h2)

theorem CycEquiv.trans {s t u : List Nat} (h1 : CycEquiv s t)
    (h2 : CycEquiv t u) : CycEquiv s u := by
  rcases h1 with h1 | h1 <;> rcases h2 with h2 | h2
  · exact Or.inl (h1.trans h2)
  · exact Or.inr ((h1.reverse).trans h2)
  · exact Or.inr (h1.trans h2)
  · left
    have h1' := h1.reverse
    rw [List.reverse_reverse] at h1'
    exact h1'.trans h2

theorem cycEquiv_arrange (cv : List Nat) (hne : cv ≠ []) :
    CycEquiv cv (arrange_cycle cv) := by
  obtain ⟨i, _, _, _, hcase⟩ := arrange_cycle_spec cv hne
  rcases hcase with ⟨_, heq⟩ | ⟨_, heq⟩
  · exact Or.inl ⟨i, heq.symm⟩
  · right
    rw [heq]
    have hrot : cv ~r cv.rotate (i + 1) := ⟨i + 1, rfl⟩
    exact List.IsRotated.reverse hrot

theorem arranged_unique (t u : List Nat) (hnd : t.Nodup) (h3 : 3 ≤ t.length)
    (heq : CycEquiv t u)
    (ht1 : ∀ j, 0 < j → j < t.length → t.getD 0 0 < t.getD j 0)
    (ht2 : t.getD 1 0 < t.getD (t.length - 1) 0)
    (hu1 : ∀ j, 0 < j → j < u.length → u.getD 0 0 < u.getD j 0)
    (hu2 : u.getD 1 0 < u.getD (u.length - 1) 0) : t = u := by
  have hn : 0 < t.length := by omega
  rcases heq with ⟨k, hk⟩ | ⟨k, hk⟩
  · have hulen : u.length = t.length := by rw [← hk, List.length_rotate]
    have hk0 : k % t.length = 0 := by
      by_contra hkn
      have hkn' : 0 < k % t.length := Nat.pos_of_ne_zero hkn
      have hklt : k % t.length < t.length := Nat.mod_lt _ hn
      have hu0 : u.getD 0 0 = t.getD (k % t.length) 0 := by
        rw [← hk, getD_rotate t k 0 hn]
        simp
      have h1 : t.getD 0 0 < u.getD 0 0 := by
        rw [hu0]
        exact ht1 _ hkn' hklt
      have ht' : t = u.rotate (t.length - k % t.length) := by
        have := List.rotate_eq_iff.mp hk
        rwa [hulen] at this
      have hq : (t.length - k % t.length) % t.length = t.length - k % t.length := by
        apply Nat.mod_eq_of_lt
        omega
      have ht0 : t.getD 0 0 = u.getD (t.length - k % t.length) 0 := by
        conv_lhs => rw [ht']
        rw [getD_rotate u _ 0 (by omega)]
        rw [hulen, Nat.zero_add, hq]
      have h2 : u.getD 0 0 < t.getD 0 0 := by
        rw [ht0]
        apply hu1 <;> omega
      omega
    rw [← hk, ← List.rotate_mod, hk0, List.rotate_zero]
  · have hulen : u.length = t.length := by
      rw [← hk, List.length_rotate, List.length_reverse]
    have hrlen : t.reverse.length = t.length := List.length_reverse t
    have hkn : k % t.length = t.length - 1 := by
      by_contra hkne
      have hklt : k % t.length < t.length := Nat.mod_lt _ hn
      have hidx : 0 < t.length - 1 - k % t.length := by omega
      have hu0 : u.getD 0 0 = t.getD (t.length - 1 - k % t.length) 0 := by
        rw [← hk, getD_rotate t.reverse k 0 (by omega)]
        rw [hrlen, Nat.zero_add]
        exact getD_reverse t _ (by omega)
      have h1 : t.getD 0 0 < u.getD 0 0 := by
        rw [hu0]
        exact ht1 _ hidx (by omega)
      have ht' : t.reverse = u.rotate (t.length - k % t.length) := by
        have := List.rotate_eq_iff.mp hk
        rwa [hulen] at this
      have ht0 : t.getD 0 0 = u.getD (t.length - 1 - k % t.length) 0 := by
        have hrev : t.getD 0 0 = t.reverse.getD (t.length - 1) 0 := by
          rw [getD_reverse t _ (by omega)]
          congr 1
          omega
        rw [hrev]
        conv_lhs => rw [ht']
        rw [getD_rotate u _ (t.length - 1) (by omega), hulen]
        congr 1
        have : t.length - 1 + (t.length - k % t.length) =
            t.length + (t.length - 1 - k % t.length) := by omega
        rw [this, Nat.add_mod_left, Nat.mod_eq_of_lt (by omega)]
      have h2 : u.getD 0 0 < t.getD 0 0 := by
        rw [ht0]
        apply hu1 <;> omega
      omega
    exfalso
    have hu1v : u.getD 1 0 = t.getD (t.length - 1) 0 := by
      rw [← hk, getD_rotate t.reverse k 1 (by omega), hrlen]
      have hmod : (1 + k) % t.length = 0 := by
        rw [Nat.add_mod, hkn, Nat.mod_eq_of_lt (show (1 : Nat) < t.length by omega)]
        have h1n : 1 + (t.length - 1) = t.length := by omega
        rw [h1n, Nat.mod_self]
      rw [hmod, getD_reverse t 0 (by omega)]
      norm_num
    have hu2v : u.getD (u.length - 1) 0 = t.getD 1 0 := by
      rw [hulen, ← hk,
        getD_rotate t.reverse k (t.length - 1) (by omega), hrlen]
      have hmod : (t.length - 1 + k) % t.length = t.length - 2 := by
        rw [Nat.add_mod, hkn,
          Nat.mod_eq_of_lt (show t.length - 1 < t.length by omega)]
        have h2n : t.length - 1 + (t.length - 1) = t.length + (t.length - 2) := by
          omega
        rw [h2n, Nat.add_mod_left, Nat.mod_eq_of_lt (by omega)]
      rw [hmod, getD_reverse t _ (by omega)]
      congr 1
      omega
    omega

/-- C9 as stated is false without a distinctness requirement: the length-6
sequence `[0,1,2,0,2,1]` (vertices repeated) and its rotation by three
positions describe the same cyclic sequence, yet `Cycle` canonicalizes them
differently. -/
theorem C9_canonicalization_counterexample :
    CycEquiv [0, 1, 2, 0, 2, 1] [0, 2, 1, 0, 1, 2] ∧
    3 ≤ ([0, 1, 2, 0, 2, 1] : List Nat).length ∧
    mkCycle [0, 1, 2, 0, 2, 1] ≠ mkCycle [0, 2, 1, 0, 1, 2] :=
  ⟨Or.inl ⟨3, by decide⟩, by decide, by decide⟩

/-- C9 (amended): for vertex sequences of length at least 3 with *distinct*
entries — the sequences that describe elementary cycles — any two sequences
describing the same cyclic sequence up to rotation and reflection construct
equal `Cycle` values; and two `Cycle` values are equal exactly when their
normalized tuples are equal. -/
theorem C9_canonicalization (s1 s2 : List Nat) (hnd : s1.Nodup)
    (h3 : 3 ≤ s1.length) (heq : CycEquiv s1 s2) :
    mkCycle s1 = mkCycle s2 ∧ (∀ t u : Cycle, t = u ↔ t.vlist = u.vlist) := by
  constructor
  · have hne1 : s1 ≠ [] := by intro h; subst h; simp at h3
    have hperm : s1.Perm s2 := heq.perm
    have hnd2 : s2.Nodup := hperm.nodup_iff.mp hnd
    have hlen2 : 3 ≤ s2.length := by rw [← hperm.length_eq]; exact h3
    have hne2 : s2 ≠ [] := by intro h; subst h; simp at hlen2
    have e1 := cycEquiv_arrange s1 hne1
    have e2 := cycEquiv_arrange s2 hne2
    have etu : CycEquiv (arrange_cycle s1) (arrange_cycle s2) :=
      (e1.symm.trans heq).trans e2
    have hndt : (arrange_cycle s1).Nodup := (e1.perm.nodup_iff).mp hnd
    have h3t : 3 ≤ (arrange_cycle s1).length := by rw [arrange_length]; exact h3
    obtain ⟨hp1t, hp2t⟩ := arrange_props s1 hnd h3
    obtain ⟨hp1u, hp2u⟩ := arrange_props s2 hnd2 hlen2
    have hlent : (arrange_cycle s1).length = s1.length := arrange_length s1
    have hlenu : (arrange_cycle s2).length = s2.length := arrange_length s2
    have ht := arranged_unique (arrange_cycle s1) (arrange_cycle s2) hndt h3t etu
      hp1t hp2t hp1u hp2u
    unfold mkCycle
    rw [ht]
  · intro t u
    constructor
    · intro h; rw [h]
    · intro h
      cases t
      cases u
      cases h
      rfl

/-- Witness for C9 at the concrete rotation pair `[1,0,2]` / `[0,2,1]`. -/
theorem C9_canonicalization_witness :
    mkCycle [1, 0, 2] = mkCycle [0, 2, 1] :=
  (C9_canonicalization [1, 0, 2] [0, 2, 1] (by decide) (by decide)
    (Or.inl ⟨1, by decide⟩)).1

end M3C
